import Mathlib

/-
Verification of the RAG write/read core of the podcast-chatbot backend.

The embedding below translates the data model and the operations of
src/services/pinecone_service.py, src/services/db_service.py and
src/managers/episode_manager.py into Lean.  External services (the Pinecone
index, the OpenAI embedding endpoint, the SQL session) are modelled by an
explicit state (the vector store, the relational tables) plus per-call
outcome flags: a flag set to false means the corresponding external call
raised, which the Python code catches and turns into a False/None result
with the documented rollback behaviour.
-/

namespace Podcast

/-- Relational Expert row (database/db_models.py): only the fields the
episode flow reads, namely the id used for lookup and the name from which
the Pinecone namespace is derived. -/
structure Expert where
  id : String
  name : String
deriving DecidableEq

/-- Relational Episode row (database/db_models.py): id, owning expert id,
title and raw content. -/
structure Episode where
  id : String
  expert_id : String
  title : String
  content : String
deriving DecidableEq

/-- Metadata stored with each Pinecone vector
(pinecone_service.py lines 115-120). -/
structure VectorMeta where
  episode_id : String
  episode_title : String
  chunk_index : Nat
  text : String
deriving DecidableEq

/-- One vector as held by the Pinecone index: its namespace, its id and its
metadata.  The float embedding values never influence the control flow of
any verified claim (they are produced by the external embedding model and
only read back by similarity search, which is abstracted by a score
oracle), so they are not part of the state. -/
structure StoredVector where
  ns : String
  id : String
  metadata : VectorMeta
deriving DecidableEq

/-- The Pinecone index state: the multiset of stored vectors, kept as a
list in insertion order. -/
abbrev Store := List StoredVector

/-- Whether a stored vector lies in namespace ns and carries metadata
episode_id equal to epid: the metadata filter used by the delete flow
(pinecone_service.py line 222). -/
def isEpisodeVector (ns epid : String) (v : StoredVector) : Bool :=
  v.ns == ns && v.metadata.episode_id == epid

/-- Model of Pinecone upsert (pinecone_service.py line 126): within the
target namespace an upserted id replaces any prior vector with that id
(idempotent upsert); vectors of other namespaces or other ids are kept.
The batch is modelled atomic: either the whole batch is applied or the
call raised and nothing changed (the caller handles the raise). -/
def upsert (store : Store) (ns : String) (batch : List (String × VectorMeta)) : Store :=
  store.filter (fun v => !(v.ns == ns && (batch.map Prod.fst).contains v.id))
    ++ batch.map (fun p => ⟨ns, p.1, p.2⟩)

/-- Model of index.query with the metadata filter on episode_id in a
namespace (pinecone_service.py lines 217-223): the matching vectors, at
most topK of them.  The ranking produced by the zero query vector is
provider-arbitrary; the model returns matches in store order. -/
def episodeMatches (store : Store) (ns epid : String) (topK : Nat) : List StoredVector :=
  (store.filter (isEpisodeVector ns epid)).take topK

/-- Model of an unfiltered index.query in a namespace
(pinecone_service.py lines 170-175): the vectors of the namespace, at most
topK of them, in store order. -/
def namespaceMatches (store : Store) (ns : String) (topK : Nat) : List StoredVector :=
  (store.filter (fun v => v.ns == ns)).take topK

/-- Model of index.delete by ids in a namespace
(pinecone_service.py line 230). -/
def deleteIds (store : Store) (ns : String) (ids : List String) : Store :=
  store.filter (fun v => !(v.ns == ns && ids.contains v.id))

/-- Whitespace as stripped by the Python strip method inside the
splitter: space, tab and the newline family. -/
def isWS (c : Char) : Bool :=
  c == ' ' || c == '\t' || c == '\n' || c == '\r' || c == '\x0b' || c == '\x0c'

/-- Python str.strip on a character list: drop whitespace from both
ends. -/
def stripChars (l : List Char) : List Char :=
  ((l.dropWhile isWS).reverse.dropWhile isWS).reverse

/-- Occurrence of a pattern as a contiguous substring of a text: the
re.search the separator selection performs on the escaped literal
separator. -/
def containsSub (pat : List Char) : List Char → Bool
  | [] => pat.isEmpty
  | c :: rest => pat.isPrefixOf (c :: rest) || containsSub pat rest

/-- The separator selection of the langchain splitter: take the first
separator of the preference list that is empty or occurs in the text,
keeping the separators after it for recursion on oversized pieces.  When
nothing matches the empty separator is reached, since the configured list
ends with it. -/
def pickSeparator : List String → List Char → String × List String
  | [], _ => ("", [])
  | s :: rest, text =>
    if s == "" then ("", [])
    else if containsSub s.data text then (s, rest)
    else pickSeparator rest text

/-- Cutting a text at every occurrence of a nonempty separator, keeping
each separator occurrence at the front of the following piece
(keep_separator mode of the langchain splitter); the fuel is at least the
text length, so the fallback case is never reached. -/
def splitKeepSepAux (sep : List Char) : Nat → List Char → List Char → List (List Char)
  | _, cur, [] => [cur]
  | 0, cur, rem => [cur ++ rem]
  | fuel + 1, cur, c :: rest =>
    if sep.isPrefixOf (c :: rest) then
      cur :: splitKeepSepAux sep fuel sep ((c :: rest).drop sep.length)
    else
      splitKeepSepAux sep fuel (cur ++ [c]) rest

def splitKeepSep (sep : String) (text : List Char) : List (List Char) :=
  splitKeepSepAux sep.data text.length [] text

/-- Joining accumulated pieces into one chunk: the pieces already carry
their separators, so they are concatenated directly, then stripped; an
all-whitespace chunk is dropped. -/
def joinDocs (docs : List (List Char)) : Option (List Char) :=
  let t := stripChars docs.flatten
  if t.isEmpty then none else some t

/-- The overlap window of the merge loop: after a chunk is emitted,
leading pieces are dropped while the running total exceeds the overlap of
100, or while it would overflow the chunk size of 1000 together with the
incoming piece. -/
def popDocs (dlen : Nat) : List (List Char) → Nat → List (List Char) × Nat
  | [], total => ([], total)
  | d0 :: rest, total =>
    if total > 100 || (total + dlen > 1000 && total > 0) then
      popDocs dlen rest (total - d0.length)
    else (d0 :: rest, total)

/-- The merge loop of the langchain splitter (chunk size 1000, overlap
100, separator length 0 in keep_separator mode): pieces accumulate into a
window; when the next piece would overflow the chunk size, the window is
emitted as a chunk and trimmed back to the overlap. -/
def mergeSplitsAux : List (List Char) → List (List Char) → Nat → List (List Char) →
    List (List Char)
  | docsAcc, currentDoc, _, [] =>
    docsAcc ++ (match joinDocs currentDoc with | some doc => [doc] | none => [])
  | docsAcc, currentDoc, total, d :: rest =>
    if total + d.length > 1000 then
      if currentDoc.isEmpty then
        mergeSplitsAux docsAcc (currentDoc ++ [d]) (total + d.length) rest
      else
        let docsAcc2 := docsAcc ++
          (match joinDocs currentDoc with | some doc => [doc] | none => [])
        let pr := popDocs d.length currentDoc total
        mergeSplitsAux docsAcc2 (pr.1 ++ [d]) (pr.2 + d.length) rest
    else
      mergeSplitsAux docsAcc (currentDoc ++ [d]) (total + d.length) rest

def mergeSplits (splits : List (List Char)) : List (List Char) :=
  mergeSplitsAux [] [] 0 splits

/-- The piece loop of the langchain splitter: pieces shorter than the
chunk size accumulate and are merged; an oversized piece first flushes
the accumulated run, then is split further with the remaining separators
(or kept whole when no separator remains). -/
def processSplits (recurse : List Char → List (List Char)) (hasNew : Bool) :
    List (List Char) → List (List Char) → List (List Char) → List (List Char)
  | goodAcc, chunksAcc, [] =>
    chunksAcc ++ (if goodAcc.isEmpty then [] else mergeSplits goodAcc)
  | goodAcc, chunksAcc, s :: rest =>
    if s.length < 1000 then
      processSplits recurse hasNew (goodAcc ++ [s]) chunksAcc rest
    else
      let chunksAcc2 := chunksAcc ++ (if goodAcc.isEmpty then [] else mergeSplits goodAcc)
      let chunksAcc3 := chunksAcc2 ++ (if hasNew then recurse s else [s])
      processSplits recurse hasNew [] chunksAcc3 rest

/-- Model of the langchain RecursiveCharacterTextSplitter as configured
in pinecone_service.py lines 47-49 (chunk_size 1000, chunk_overlap 100,
separators paragraph, newline, sentence end, space, character;
keep_separator and strip_whitespace at their defaults): pick the first
separator occurring in the text, cut there keeping separators attached,
merge small pieces into chunks of at most 1000 characters with an
overlap of 100, strip each chunk, and recurse with the remaining
separators on oversized pieces.  The fuel bounds the recursion depth by
the separator-list length, which the driver supplies in full. -/
def splitRecAux : Nat → List String → List Char → List (List Char)
  | 0, _, text => [text]
  | fuel + 1, seps, text =>
    let ps := pickSeparator seps text
    let raw := if ps.1 == "" then text.map (fun c => [c]) else splitKeepSep ps.1 text
    let splits := raw.filter (fun s => !s.isEmpty)
    processSplits (splitRecAux fuel ps.2) (!ps.2.isEmpty) [] [] splits

/-- The configured separator preference (pinecone_service.py line 48). -/
def separators : List String := ["\n\n", "\n", ". ", " ", ""]

/-- Splitting a string into chunk strings, via its character list. -/
def splitText (s : String) : List String :=
  (splitRecAux separators.length separators s.data).map String.mk

/-- Model of the Python expression name.lower() for the names at issue:
char-by-char lowercasing. -/
def pyLower (s : String) : String :=
  String.mk (s.data.map Char.toLower)

/-- Model of the Python expression s.replace applied to the one-character
pattern of a space, replaced by an underscore: a char map. -/
def replaceSpaces (s : String) : String :=
  String.mk (s.data.map (fun c => if c == ' ' then '_' else c))

/-- The namespace derivation used by the storage path
(pinecone_service.py line 127): lowercase the expert name, then turn
spaces into underscores. -/
def derivedNamespace (name : String) : String :=
  replaceSpaces (pyLower name)

/-- Outcome of the external calls a PineconeService method can make during
one invocation: embedding the documents, embedding the query, the upsert,
the query and the delete against the index.  A false flag means the call
raised.  The score field is the similarity score the index reports for a
stored vector against the current query: the cosine similarity of float
embeddings is outside the model, so it is an oracle of the call. -/
structure PineconeEnv where
  embedDocsOk : Bool
  embedQueryOk : Bool
  upsertOk : Bool
  queryOk : Bool
  deleteOk : Bool
  score : StoredVector → ℚ

/-- An environment in which every external call succeeds. -/
def envAllOk : PineconeEnv :=
  ⟨true, true, true, true, true, fun _ => 0⟩

/-- The chunk texts an episode is split into
(pinecone_service.py lines 103-106): the splitter runs on the string
obtained by prepending the prefix of the word Content, a colon and a space
to the episode content. -/
def episodeChunks (ep : Episode) : List String :=
  splitText ("Content: " ++ ep.content)

/-- The vector id of chunk i of an episode
(pinecone_service.py line 114). -/
def chunkId (episodeId : String) (i : Nat) : String :=
  episodeId ++ "_chunk_" ++ toString i

/-- The id/metadata batch built by store_episode_content
(pinecone_service.py lines 112-123): one vector per chunk, carrying the
episode id, the episode title, the chunk index and the chunk text. -/
def episodeVectors (ep : Episode) : List (String × VectorMeta) :=
  (episodeChunks ep).enum.map
    (fun p => (chunkId ep.id p.1, ⟨ep.id, ep.title, p.1, p.2⟩))

/-- PineconeService.store_episode_content
(pinecone_service.py lines 78-137): split the prefixed content, embed the
chunks, upsert the batch into the namespace derived from the expert name;
any raising external call is caught and turned into False with the index
unchanged. -/
def store_episode_content (env : PineconeEnv) (store : Store) (ep : Episode)
    (dbExpertName : String) : Bool × Store :=
  if env.embedDocsOk && env.upsertOk then
    (true, upsert store (derivedNamespace dbExpertName) (episodeVectors ep))
  else
    (false, store)

/-- PineconeService.delete_episode (pinecone_service.py lines 199-239):
query the namespace with the episode_id metadata filter and top_k 10000,
collect the matched ids, and delete them; when no id matched the delete
call is skipped and True is returned; a raising call is caught and turned
into False with the index unchanged.  The namespace argument is used
exactly as given, without derivation. -/
def pinecone_delete_episode (env : PineconeEnv) (store : Store)
    (episodeId ns : String) : Bool × Store :=
  if env.queryOk then
    let ids := (episodeMatches store ns episodeId 10000).map (fun v => v.id)
    if ids.isEmpty then (true, store)
    else if env.deleteOk then (true, deleteIds store ns ids)
    else (false, store)
  else (false, store)

/-- One formatted result of query_knowledge
(pinecone_service.py lines 180-188). -/
structure ChunkResult where
  text : String
  score : ℚ
  episode_title : String
  episode_id : String
  metadata : VectorMeta

/-- PineconeService.query_knowledge (pinecone_service.py lines 139-197):
embed the query, query the namespace with the configured top_k, and format
each match; any raising external call is caught and the empty list is
returned. -/
def query_knowledge (env : PineconeEnv) (store : Store) (query ns : String)
    (topK : Nat) : List ChunkResult :=
  if env.embedQueryOk && env.queryOk then
    (namespaceMatches store ns topK).map (fun v =>
      { text := v.metadata.text
        score := env.score v
        episode_title := v.metadata.episode_title
        episode_id := v.metadata.episode_id
        metadata := v.metadata })
  else []

/-- The relational state the episode flow touches: the expert table and
the episode table. -/
structure DB where
  experts : List Expert
  episodes : List Episode
deriving DecidableEq

namespace DatabaseService

/-- DatabaseService.get_expert_by_id (db_service.py lines 123-129):
primary-key lookup. -/
def get_expert_by_id (db : DB) (expertId : String) : Option Expert :=
  db.experts.find? (fun e => e.id == expertId)

/-- DatabaseService.get_episode_by_id (db_service.py lines 215-221):
primary-key lookup. -/
def get_episode_by_id (db : DB) (episodeId : String) : Option Episode :=
  db.episodes.find? (fun e => e.id == episodeId)

/-- DatabaseService.create_episode (db_service.py lines 181-200): insert a
row and commit.  newId models the primary key the database assigns;
commitOk models the commit outcome: on a raising commit the session is
rolled back, None is returned and the table is unchanged. -/
def create_episode (commitOk : Bool) (newId : String) (db : DB)
    (expertId title content : String) : Option Episode × DB :=
  if commitOk then
    let ep : Episode := ⟨newId, expertId, title, content⟩
    (some ep, { db with episodes := db.episodes ++ [ep] })
  else (none, db)

/-- DatabaseService.update_episode (db_service.py lines 223-245): look the
episode up, set the passed title and content attributes, commit.  A
missing episode or a raising commit yields None with the table unchanged
(the session is rolled back on raise). -/
def update_episode (commitOk : Bool) (db : DB) (episodeId title content : String) :
    Option Episode × DB :=
  match get_episode_by_id db episodeId with
  | none => (none, db)
  | some ep =>
    if commitOk then
      let ep2 : Episode := { ep with title := title, content := content }
      (some ep2,
        { db with episodes := db.episodes.map (fun e => if e.id == episodeId then ep2 else e) })
    else (none, db)

/-- DatabaseService.delete_episode (db_service.py lines 247-262): look the
episode up, delete the row, commit; a missing episode or a raising commit
yields False with the table unchanged. -/
def delete_episode (commitOk : Bool) (db : DB) (episodeId : String) : Bool × DB :=
  match get_episode_by_id db episodeId with
  | none => (false, db)
  | some _ =>
    if commitOk then
      (true, { db with episodes := db.episodes.filter (fun e => !(e.id == episodeId)) })
    else (false, db)

end DatabaseService

/-- A JSON response of the episode manager, reduced to the fields the
claims read: the success flag, the HTTP status and the error message
(empty on success). -/
structure Response where
  success : Bool
  status : Nat
  error : String
deriving DecidableEq

/-- The combined system state: the relational tables and the Pinecone
index. -/
structure Sys where
  db : DB
  store : Store
deriving DecidableEq

/-- A request body for episode create and update: the title and content
fields.  A missing or empty body is modelled as none at the call site. -/
structure EpisodeData where
  title : String
  content : String
deriving DecidableEq

namespace EpisodeManager

/-- Whitespace as recognised by the Python strip method: space, tab and
the newline family. -/
def isPySpace (c : Char) : Bool :=
  c == ' ' || c == '\t' || c == '\n' || c == '\r' || c == '\x0b' || c == '\x0c'

/-- Model of the Python strip method with no argument: drop whitespace
from both ends. -/
def pyStrip (s : String) : String :=
  String.mk (((s.data.dropWhile isPySpace).reverse.dropWhile isPySpace).reverse)

/-- EpisodeManager._validate_data (episode_manager.py lines 214-242):
reject a missing expert, a missing body, and a blank (after stripping)
title or content, with the matching message. -/
def validate_data (expert : Option Expert) (data : Option EpisodeData) :
    Bool × String :=
  match expert with
  | none => (false, "Expert not found")
  | some _ =>
    match data with
    | none => (false, "No data provided")
    | some d =>
      if pyStrip d.title == "" then (false, "Episode title is required")
      else if pyStrip d.content == "" then (false, "Episode content is required")
      else (true, "")

/-- External outcomes of one create request: the database commit, the id
the database assigns, and the Pinecone environment of the storage call. -/
structure CreateEnv where
  dbCommitOk : Bool
  newEpisodeId : String
  pine : PineconeEnv

/-- EpisodeManager.create_episode (episode_manager.py lines 29-63): look
the expert up, validate, insert the row, then store the content in
Pinecone.  As in the source, the boolean returned by
store_episode_content is ignored: the 201 success response is returned
whether or not the vector storage succeeded (only the index state
changes on success). -/
def create_episode (env : CreateEnv) (sys : Sys) (expertId : String)
    (data : Option EpisodeData) : Response × Sys :=
  let expert? := DatabaseService.get_expert_by_id sys.db expertId
  let v := validate_data expert? data
  match expert?, data with
  | some expert, some d =>
    if v.1 then
      match DatabaseService.create_episode env.dbCommitOk env.newEpisodeId sys.db
          expertId d.title d.content with
      | (some ep, db2) =>
        let stored := store_episode_content env.pine sys.store ep expert.name
        (⟨true, 201, ""⟩, ⟨db2, stored.2⟩)
      | (none, db2) => (⟨false, 500, "Failed to create episode"⟩, ⟨db2, sys.store⟩)
    else (⟨false, 400, v.2⟩, sys)
  | _, _ => (⟨false, 400, v.2⟩, sys)

/-- External outcomes of one update request: the database commit and the
Pinecone environments of the delete call and of the storage call. -/
structure UpdateEnv where
  dbCommitOk : Bool
  pineDelete : PineconeEnv
  pineStore : PineconeEnv

/-- EpisodeManager.update_episode (episode_manager.py lines 84-149): look
the expert up, validate, update the row, then delete the old vectors and
store the new ones, reporting the first failing step with a 500.  As in
the source (line 125) the delete call receives the raw expert name as the
namespace argument, while the storage call derives the namespace from the
name itself. -/
def update_episode (env : UpdateEnv) (sys : Sys) (expertId episodeId : String)
    (data : Option EpisodeData) : Response × Sys :=
  let expert? := DatabaseService.get_expert_by_id sys.db expertId
  let v := validate_data expert? data
  match expert?, data with
  | some dbExpert, some d =>
    if v.1 then
      match DatabaseService.update_episode env.dbCommitOk sys.db episodeId
          d.title d.content with
      | (none, db2) =>
        (⟨false, 500, "Failed to update episode in database"⟩, ⟨db2, sys.store⟩)
      | (some ep, db2) =>
        let del := pinecone_delete_episode env.pineDelete sys.store episodeId dbExpert.name
        if !del.1 then
          (⟨false, 500, "Failed to delete old episode content from Pinecone"⟩, ⟨db2, del.2⟩)
        else
          let st := store_episode_content env.pineStore del.2 ep dbExpert.name
          if !st.1 then
            (⟨false, 500, "Failed to store updated episode content in Pinecone"⟩, ⟨db2, st.2⟩)
          else (⟨true, 200, ""⟩, ⟨db2, st.2⟩)
    else (⟨false, 400, v.2⟩, sys)
  | _, _ => (⟨false, 400, v.2⟩, sys)

/-- External outcomes of one delete request: the database commit and the
Pinecone environment of the delete call. -/
structure DeleteEnv where
  dbCommitOk : Bool
  pineDelete : PineconeEnv

/-- EpisodeManager.delete_episode (episode_manager.py lines 151-212): look
the expert and the episode up, delete the vectors from the namespace
derived from the expert name (line 181 derives it at the call site), then
delete the row, reporting the first failing step. -/
def delete_episode (env : DeleteEnv) (sys : Sys) (expertId episodeId : String) :
    Response × Sys :=
  match DatabaseService.get_expert_by_id sys.db expertId with
  | none => (⟨false, 404, "Expert not found"⟩, sys)
  | some expert =>
    match DatabaseService.get_episode_by_id sys.db episodeId with
    | none => (⟨false, 404, "Episode not found"⟩, sys)
    | some _ =>
      let del := pinecone_delete_episode env.pineDelete sys.store episodeId
        (derivedNamespace expert.name)
      if !del.1 then
        (⟨false, 500, "Failed to delete episode from Pinecone"⟩, ⟨sys.db, del.2⟩)
      else
        match DatabaseService.delete_episode env.dbCommitOk sys.db episodeId with
        | (true, db2) => (⟨true, 200, "Episode deleted successfully"⟩, ⟨db2, del.2⟩)
        | (false, db2) =>
          (⟨false, 500, "Failed to delete episode from database"⟩, ⟨db2, del.2⟩)

end EpisodeManager

/-- Modelled from the spec: one match as seen by the Retrieval Engine.
The engine itself lives in models/managers/chat_manager.py, which app.py
imports but which is missing from the source tree; only its input format,
produced by query_knowledge, is in src. -/
structure RMatch where
  episode_title : String
  text : String
  score : ℚ

/-- Modelled from the spec: the per-match context format of the Retrieval
Engine, given in section 4.5 of the spec as the word From, the quoted
episode title, a colon and the chunk text. -/
def formatMatch (m : RMatch) : String :=
  "From \x27" ++ m.episode_title ++ "\x27: " ++ m.text

/-- Modelled from the spec: the sentinel no-relevant-context string the
Retrieval Engine returns when no match survives filtering (spec
section 4.5); a distinguished non-empty value. -/
def noContextSentinel : String := "no relevant context"

/-- Modelled from the spec: the Retrieval Engine of
models/managers/chat_manager.py (missing from src; imported by app.py).
Spec section 4.5: keep the matches whose score strictly exceeds the
threshold, format each surviving match, join with double newlines, and
return the sentinel when nothing survives. -/
def retrieve (ms : List RMatch) (threshold : ℚ) : String :=
  let surviving := ms.filter (fun m => threshold < m.score)
  if surviving.isEmpty then noContextSentinel
  else String.intercalate "\n\n" (surviving.map formatMatch)

/-!  Concrete scenarios used by counterexample and witness theorems. -/

/-- An environment in which the document-embedding call raises. -/
def envEmbedFail : PineconeEnv := ⟨false, true, true, true, true, fun _ => 0⟩

/-- An environment in which the index query call raises. -/
def envQueryFail : PineconeEnv := ⟨true, true, true, false, true, fun _ => 0⟩

/-- An environment in which the query-embedding call raises. -/
def envEmbedQueryFail : PineconeEnv := ⟨true, false, true, true, true, fun _ => 0⟩

/-- An update request in which every external call succeeds. -/
def envUpdAllOk : EpisodeManager.UpdateEnv := ⟨true, envAllOk, envAllOk⟩

/-- An expert whose name is not equal to its derived namespace. -/
def annExpert : Expert := ⟨"ex1", "Ann Smith"⟩

/-- A content of two 600-character paragraphs, which together with the
prepended Content prefix splits into two chunks. -/
def annOldContent : String :=
  String.mk (List.replicate 600 'x') ++ "\n\n" ++ String.mk (List.replicate 600 'x')

def annEpisode : Episode := ⟨"ep1", "ex1", "Old", annOldContent⟩

/-- The index after the create flow stored the two chunks of the episode
of annExpert. -/
def annStore0 : Store := (store_episode_content envAllOk [] annEpisode "Ann Smith").2

def annSys0 : Sys := ⟨⟨[annExpert], [annEpisode]⟩, annStore0⟩

/-- The result of updating the episode of annExpert to a one-chunk
content, with every external call succeeding. -/
def annUpd : Response × Sys :=
  EpisodeManager.update_episode envUpdAllOk annSys0 "ex1" "ep1" (some ⟨"New", "short"⟩)

/-- A second expert whose name is not equal to its derived namespace. -/
def bobExpert : Expert := ⟨"ex2", "Bob Marley"⟩

def bobOldContent : String :=
  String.mk (List.replicate 600 'y') ++ "\n\n" ++ String.mk (List.replicate 600 'y')

def bobEpisode : Episode := ⟨"ep2", "ex2", "Old", bobOldContent⟩

/-- The index after the create flow stored the two chunks of the episode
of bobExpert. -/
def bobStore0 : Store := (store_episode_content envAllOk [] bobEpisode "Bob Marley").2

def bobSys0 : Sys := ⟨⟨[bobExpert], [bobEpisode]⟩, bobStore0⟩

/-- The result of updating the episode of bobExpert to a one-chunk
content, with every external call succeeding. -/
def bobUpd : Response × Sys :=
  EpisodeManager.update_episode envUpdAllOk bobSys0 "ex2" "ep2" (some ⟨"New", "tiny"⟩)

/-- An expert whose name already equals its derived namespace, for the
atomicity scenario. -/
def carolExpert : Expert := ⟨"ex3", "carol"⟩

def carolEpisode : Episode := ⟨"ep3", "ex3", "OldT", "oldc"⟩

def carolStore : Store := (store_episode_content envAllOk [] carolEpisode "carol").2

def carolSys : Sys := ⟨⟨[carolExpert], [carolEpisode]⟩, carolStore⟩

/-- The result of updating the carol episode while the index query raises
during the vector delete step: the database commit succeeds first. -/
def carolUpd : Response × Sys :=
  EpisodeManager.update_episode ⟨true, envQueryFail, envAllOk⟩ carolSys "ex3" "ep3"
    (some ⟨"NewT", "newc"⟩)

/-- An expert for the create scenario. -/
def daveExpert : Expert := ⟨"ex4", "dave"⟩

def daveSys : Sys := ⟨⟨[daveExpert], []⟩, []⟩

/-- The result of a valid create request during which the
document-embedding call raises, so no vectors are stored. -/
def daveCreate : Response × Sys :=
  EpisodeManager.create_episode ⟨true, "ep9", envEmbedFail⟩ daveSys "ex4" (some ⟨"T", "c"⟩)

/-- A vector id used by the large-store scenario: i characters a, so ids
of distinct indices are distinct. -/
def staleId (i : Nat) : String := String.mk (List.replicate i 'a')

/-- One vector of the large-store scenario, in a fixed namespace with a
fixed episode id in its metadata. -/
def bigVector (i : Nat) : StoredVector := ⟨"ns_big", staleId i, ⟨"epBig", "T", i, "x"⟩⟩

/-- A store holding 10001 vectors of one episode in one namespace: one
more than the top_k of the delete query. -/
def bigStore : Store := (List.range 10001).map bigVector

/-- A small episode used by the storage-contract witness. -/
def demoEp8 : Episode := ⟨"e8", "x8", "T8", "hi"⟩

/-- A one-vector store used by the delete-then-query witness. -/
def wStore7 : Store := [⟨"ns7", "v0", ⟨"ep7", "t", 0, "txt"⟩⟩]

/-- An expert and episode used by the update-rollback witness. -/
def erinExpert : Expert := ⟨"ex5", "erin"⟩

def erinEpisode : Episode := ⟨"ep5", "ex5", "A", "b"⟩

def erinSys : Sys := ⟨⟨[erinExpert], [erinEpisode]⟩, []⟩

/-- An expert used by the namespace-containment witness. -/
def frankExpert : Expert := ⟨"ex6", "Frank Zappa"⟩

def frankSys : Sys := ⟨⟨[frankExpert], []⟩, []⟩

/-- The vector the create flow stores for a one-chunk episode of
frankExpert, used by the namespace-containment witness. -/
def frankVec : StoredVector := ⟨"frank_zappa", "ep6_chunk_0", ⟨"ep6", "T", 0, "Content: c"⟩⟩

/-- An episode whose content is one 1000-character word: the splitter can
only cut at the space of the Content prefix, so the first chunk keeps no
trailing space. -/
def zEp : Episode := ⟨"epZ", "exZ", "T", String.mk (List.replicate 1000 'z')⟩

/-- An expert and episode used by the delete-flow addressing witness. -/
def ginaExpert : Expert := ⟨"ex7", "Gina G"⟩

def ginaEpisode : Episode := ⟨"ep7g", "ex7", "Tg", "cg"⟩

def ginaSys : Sys := ⟨⟨[ginaExpert], [ginaEpisode]⟩, []⟩

/-!  Theorems. -/

set_option maxRecDepth 1000000

/-- C9: query_knowledge never propagates a raising external call: when
the query-embedding call or the index query call fails, it returns the
empty list (the no-context degradation), so a retrieval failure cannot
abort the chat turn. -/
theorem query_knowledge_failure_returns_empty (env : PineconeEnv) (store : Store)
    (q ns : String) (k : Nat)
    (h : env.embedQueryOk = false ∨ env.queryOk = false) :
    query_knowledge env store q ns k = [] := by
  unfold query_knowledge
  rcases h with h | h <;> simp [h]

/-- Witness for the query-failure theorem at a concrete input. -/
theorem query_knowledge_failure_returns_empty_witness :
    (envEmbedQueryFail.embedQueryOk = false ∨ envEmbedQueryFail.queryOk = false) ∧
    query_knowledge envEmbedQueryFail wStore7 "q" "ns7" 5 = [] :=
  ⟨Or.inl rfl,
    query_knowledge_failure_returns_empty envEmbedQueryFail wStore7 "q" "ns7" 5 (Or.inl rfl)⟩

/-- C6: when no match survives threshold filtering, the Retrieval Engine
(modelled from the spec) returns the sentinel no-relevant-context string,
a distinguished non-empty value, never the empty string. -/
theorem retrieval_empty_filter_returns_sentinel (ms : List RMatch) (t : ℚ)
    (h : ms.filter (fun m => t < m.score) = []) :
    retrieve ms t = noContextSentinel ∧ noContextSentinel ≠ "" := by
  refine ⟨?_, by decide⟩
  unfold retrieve
  simp [h]

/-- Witness for the sentinel theorem at a concrete input. -/
theorem retrieval_empty_filter_returns_sentinel_witness :
    ([] : List RMatch).filter (fun m => mkRat 7 10 < m.score) = [] ∧
    (retrieve [] (mkRat 7 10) = noContextSentinel ∧ noContextSentinel ≠ "") :=
  ⟨rfl, retrieval_empty_filter_returns_sentinel [] (mkRat 7 10) rfl⟩

/-- C5: with match scores 0.9, 0.6 and 0.3 and threshold 0.7 the
Retrieval Engine (modelled from the spec) returns exactly the formatted
0.9-score chunk: the two other matches fail the strict score
comparison. -/
theorem retrieval_threshold_filtering (m1 m2 m3 : RMatch)
    (h1 : m1.score = mkRat 9 10) (h2 : m2.score = mkRat 6 10)
    (h3 : m3.score = mkRat 3 10) :
    retrieve [m1, m2, m3] (mkRat 7 10) = formatMatch m1 := by
  have d1 : decide (mkRat 7 10 < mkRat 9 10) = true := by decide
  have d2 : decide (mkRat 7 10 < mkRat 6 10) = false := by decide
  have d3 : decide (mkRat 7 10 < mkRat 3 10) = false := by decide
  unfold retrieve
  simp only [List.filter_cons, List.filter_nil, h1, h2, h3, d1, d2, d3,
    if_true, if_false, List.isEmpty_cons, Bool.false_eq_true, List.map_cons,
    List.map_nil]
  rfl

/-- Witness for the threshold-filtering theorem at concrete matches. -/
theorem retrieval_threshold_filtering_witness :
    (⟨"t1", "c1", mkRat 9 10⟩ : RMatch).score = mkRat 9 10 ∧
    retrieve [⟨"t1", "c1", mkRat 9 10⟩, ⟨"t2", "c2", mkRat 6 10⟩,
        ⟨"t3", "c3", mkRat 3 10⟩] (mkRat 7 10)
      = formatMatch ⟨"t1", "c1", mkRat 9 10⟩ :=
  ⟨rfl, retrieval_threshold_filtering ⟨"t1", "c1", mkRat 9 10⟩ ⟨"t2", "c2", mkRat 6 10⟩
    ⟨"t3", "c3", mkRat 3 10⟩ rfl rfl rfl⟩

/-- C1: the claim fails on the code at a concrete input.  The expert name
Ann Smith yields the storage namespace ann_smith, but the update flow
passes the raw name to the vector delete, so after a successful update
from 2 chunks to 1 chunk the stale vector id of chunk 1 is still present
in the namespace ann_smith. -/
theorem update_shrinking_leaves_stale_chunk :
    (episodeChunks annEpisode).length = 2 ∧
    (episodeChunks ⟨"ep1", "ex1", "New", "short"⟩).length = 1 ∧
    annUpd.1.success = true ∧
    annUpd.2.store.any
      (fun v => v.ns == derivedNamespace "Ann Smith" && v.id == chunkId "ep1" 1) = true := by
  decide

/-- C2 counterexample: the update flow is not atomic.  With the carol
scenario, the database commit succeeds and then the vector delete step
fails: the response reports an error, yet the relational row already
carries the new title and content while the vector store is unchanged, so
the row is not left with its prior title and content. -/
theorem update_not_atomic_cex :
    carolUpd.1.success = false ∧
    DatabaseService.get_episode_by_id carolUpd.2.db "ep3"
      = some ⟨"ep3", "ex3", "NewT", "newc"⟩ ∧
    carolUpd.2.store = carolStore := by
  decide

/-- C3: the claim fails on the code at a concrete input.  The create flow
ignores the boolean returned by store_episode_content: with the
document-embedding call raising, the vector storage fails and the index
stays empty, yet the caller receives the 201 success response while the
row exists only in the database. -/
theorem create_ignores_vector_failure :
    (store_episode_content envEmbedFail [] ⟨"ep9", "ex4", "T", "c"⟩ "dave").1 = false ∧
    daveCreate.1 = ⟨true, 201, ""⟩ ∧
    daveCreate.2.store = [] ∧
    DatabaseService.get_episode_by_id daveCreate.2.db "ep9"
      = some ⟨"ep9", "ex4", "T", "c"⟩ := by
  decide

/-- C4 counterexample: the delete performed by the update flow is not
addressed at the derived namespace.  The very call the update flow makes
(raw name Bob Marley) returns True yet removes nothing, although chunks
of the episode sit in the derived namespace bob_marley, and after the
successful update the stale chunk 1 is still present there. -/
theorem update_delete_addresses_raw_name_cex :
    pinecone_delete_episode envAllOk bobStore0 "ep2" "Bob Marley" = (true, bobStore0) ∧
    bobStore0.any (isEpisodeVector (derivedNamespace "Bob Marley") "ep2") = true ∧
    derivedNamespace "Bob Marley" ≠ "Bob Marley" ∧
    bobUpd.1.success = true ∧
    bobUpd.2.store.any
      (fun v => v.ns == derivedNamespace "Bob Marley" && v.id == chunkId "ep2" 1) = true := by
  decide

/-- C8: the batch built by store_episode_content has exactly one vector
per chunk, its ids are the episode id with the chunk suffix for the
indices 0 to k-1, the vector of index i carries the episode id, the
episode title, the index i and the text of chunk i, and on success the
call upserts exactly this batch into the derived namespace. -/
theorem store_episode_content_contract (env : PineconeEnv) (store : Store)
    (ep : Episode) (name : String)
    (hemb : env.embedDocsOk = true) (hup : env.upsertOk = true) :
    (episodeVectors ep).length = (episodeChunks ep).length ∧
    (episodeVectors ep).map Prod.fst
      = (List.range (episodeChunks ep).length).map (chunkId ep.id) ∧
    (∀ i c, (episodeChunks ep)[i]? = some c →
      (episodeVectors ep)[i]? = some (chunkId ep.id i, ⟨ep.id, ep.title, i, c⟩)) ∧
    store_episode_content env store ep name
      = (true, upsert store (derivedNamespace name) (episodeVectors ep)) := by
  refine ⟨by simp [episodeVectors], ?_, ?_, by simp [store_episode_content, hemb, hup]⟩
  · rw [episodeVectors, List.map_map]
    have hco : (Prod.fst ∘ fun p : Nat × String =>
        (chunkId ep.id p.1, VectorMeta.mk ep.id ep.title p.1 p.2))
        = (chunkId ep.id) ∘ Prod.fst := rfl
    rw [hco, ← List.map_map, List.enum_eq_enumFrom, List.enumFrom_map_fst,
      ← List.range_eq_range']
  · intro i c hc
    simp [episodeVectors, List.getElem?_enum, hc]

/-- Witness for the storage contract at a concrete input. -/
theorem store_episode_content_contract_witness :
    envAllOk.embedDocsOk = true ∧ envAllOk.upsertOk = true ∧
    store_episode_content envAllOk [] demoEp8 "My Expert"
      = (true, upsert [] (derivedNamespace "My Expert") (episodeVectors demoEp8)) :=
  ⟨rfl, rfl,
    (store_episode_content_contract envAllOk [] demoEp8 "My Expert" rfl rfl).2.2.2⟩

/-- The pieces of a separator cut concatenate back to the accumulator
and the remaining input. -/
theorem splitKeepSepAux_flatten (sep : List Char) :
    ∀ fuel cur rem, (splitKeepSepAux sep fuel cur rem).flatten = cur ++ rem := by
  intro fuel
  induction fuel with
  | zero =>
    intro cur rem
    cases rem with
    | nil => simp [splitKeepSepAux]
    | cons c rest => simp [splitKeepSepAux]
  | succ fuel ih =>
    intro cur rem
    cases rem with
    | nil => simp [splitKeepSepAux]
    | cons c rest =>
      simp only [splitKeepSepAux]
      by_cases hp : sep.isPrefixOf (c :: rest) = true
      · rw [if_pos hp]
        obtain ⟨t, ht⟩ := List.isPrefixOf_iff_prefix.mp hp
        have hdrop : (c :: rest).drop sep.length = t := by
          rw [← ht]
          exact List.drop_left sep t
        rw [List.flatten_cons, ih, hdrop, ht]
      · rw [if_neg hp, ih]
        simp

/-- Filtering out empty pieces does not change the concatenation. -/
theorem flatten_filter_ne_empty (L : List (List Char)) :
    (L.filter (fun s => !s.isEmpty)).flatten = L.flatten := by
  induction L with
  | nil => rfl
  | cons s rest ih =>
    cases s with
    | nil => simpa using ih
    | cons c cs => simpa using ih

/-- The singleton pieces of the character-level cut concatenate back to
the input. -/
theorem flatten_map_singleton (l : List Char) :
    (l.map (fun c => [c])).flatten = l := by
  induction l with
  | nil => rfl
  | cons c rest ih => simpa using ih

/-- Dropping a whitespace prefix does not change the count of a
non-whitespace character. -/
theorem count_dropWhile_isWS (l : List Char) (a : Char) (ha : isWS a = false) :
    (l.dropWhile isWS).count a = l.count a := by
  conv_rhs => rw [← List.takeWhile_append_dropWhile isWS l]
  rw [List.count_append]
  have hz : (l.takeWhile isWS).count a = 0 := by
    rw [List.count_eq_zero]
    intro hmem
    have hw := List.mem_takeWhile_imp hmem
    rw [hw] at ha
    exact absurd ha (by decide)
  omega

/-- Stripping does not change the count of a non-whitespace character. -/
theorem count_stripChars (l : List Char) (a : Char) (ha : isWS a = false) :
    (stripChars l).count a = l.count a := by
  unfold stripChars
  rw [List.count_reverse, count_dropWhile_isWS _ _ ha, List.count_reverse,
    count_dropWhile_isWS _ _ ha]

/-- A joined chunk dropped as all-whitespace holds no occurrence of a
non-whitespace character. -/
theorem joinDocs_none_count (docs : List (List Char)) (a : Char)
    (ha : isWS a = false) (h : joinDocs docs = none) :
    docs.flatten.count a = 0 := by
  simp only [joinDocs] at h
  by_cases he : (stripChars docs.flatten).isEmpty = true
  · rw [← count_stripChars _ _ ha]
    rw [List.isEmpty_iff] at he
    rw [he]
    rfl
  · rw [if_neg he] at h
    exact absurd h (by simp)

/-- A joined chunk keeps the count of a non-whitespace character of the
pieces it joins. -/
theorem joinDocs_some_count (docs : List (List Char)) (d : List Char) (a : Char)
    (ha : isWS a = false) (h : joinDocs docs = some d) :
    d.count a = docs.flatten.count a := by
  simp only [joinDocs] at h
  by_cases he : (stripChars docs.flatten).isEmpty = true
  · rw [if_pos he] at h
    exact absurd h (by simp)
  · rw [if_neg he] at h
    injection h with h
    rw [← h, count_stripChars _ _ ha]

/-- The merge loop never loses an occurrence of a non-whitespace
character: every piece lands in at least one emitted chunk. -/
theorem mergeSplitsAux_count (a : Char) (ha : isWS a = false) :
    ∀ splits docsAcc currentDoc total,
      docsAcc.flatten.count a + currentDoc.flatten.count a + splits.flatten.count a
        ≤ (mergeSplitsAux docsAcc currentDoc total splits).flatten.count a := by
  intro splits
  induction splits with
  | nil =>
    intro docsAcc currentDoc total
    simp only [mergeSplitsAux]
    cases hj : joinDocs currentDoc with
    | none =>
      have hc := joinDocs_none_count currentDoc a ha hj
      simp [hc]
    | some doc =>
      have hc := joinDocs_some_count currentDoc doc a ha hj
      simp [hc]
  | cons d rest ih =>
    intro docsAcc currentDoc total
    simp only [mergeSplitsAux]
    by_cases h1 : total + d.length > 1000
    · rw [if_pos h1]
      by_cases h2 : currentDoc.isEmpty = true
      · rw [if_pos h2]
        have h3 := ih docsAcc (currentDoc ++ [d]) (total + d.length)
        simp only [List.flatten_append, List.flatten_cons, List.flatten_nil,
          List.count_append, List.append_nil] at h3 ⊢
        omega
      · rw [if_neg h2]
        cases hj : joinDocs currentDoc with
        | none =>
          have hc := joinDocs_none_count currentDoc a ha hj
          have h3 := ih (docsAcc ++ []) ((popDocs d.length currentDoc total).1 ++ [d])
            ((popDocs d.length currentDoc total).2 + d.length)
          simp only [hj, List.flatten_append, List.flatten_cons, List.flatten_nil,
            List.count_append, List.append_nil] at h3 ⊢
          omega
        | some doc =>
          have hc := joinDocs_some_count currentDoc doc a ha hj
          have h3 := ih (docsAcc ++ [doc]) ((popDocs d.length currentDoc total).1 ++ [d])
            ((popDocs d.length currentDoc total).2 + d.length)
          simp only [hj, List.flatten_append, List.flatten_cons, List.flatten_nil,
            List.count_append, List.append_nil] at h3 ⊢
          omega
    · rw [if_neg h1]
      have h3 := ih docsAcc (currentDoc ++ [d]) (total + d.length)
      simp only [List.flatten_append, List.flatten_cons, List.flatten_nil,
        List.count_append, List.append_nil] at h3 ⊢
      omega

/-- The piece loop never loses an occurrence of a non-whitespace
character, given that recursive splitting of oversized pieces never
does. -/
theorem processSplits_count (r : List Char → List (List Char)) (hn : Bool) (a : Char)
    (ha : isWS a = false) (hr : ∀ s, s.count a ≤ (r s).flatten.count a) :
    ∀ splits goodAcc chunksAcc,
      chunksAcc.flatten.count a + goodAcc.flatten.count a + splits.flatten.count a
        ≤ (processSplits r hn goodAcc chunksAcc splits).flatten.count a := by
  intro splits
  induction splits with
  | nil =>
    intro goodAcc chunksAcc
    simp only [processSplits]
    by_cases hg : goodAcc.isEmpty = true
    · rw [if_pos hg]
      rw [List.isEmpty_iff] at hg
      simp [hg]
    · rw [if_neg hg]
      have hm := mergeSplitsAux_count a ha goodAcc [] [] 0
      simp only [List.flatten_nil, List.count_append, List.flatten_append] at hm ⊢
      simp only [mergeSplits]
      omega
  | cons s rest ih =>
    intro goodAcc chunksAcc
    simp only [processSplits]
    by_cases h1 : s.length < 1000
    · rw [if_pos h1]
      have h3 := ih (goodAcc ++ [s]) chunksAcc
      simp only [List.flatten_append, List.flatten_cons, List.flatten_nil,
        List.count_append, List.append_nil] at h3 ⊢
      omega
    · rw [if_neg h1]
      have hflush : goodAcc.flatten.count a
          ≤ (if goodAcc.isEmpty then [] else mergeSplits goodAcc).flatten.count a := by
        by_cases hg : goodAcc.isEmpty = true
        · rw [if_pos hg]
          rw [List.isEmpty_iff] at hg
          simp [hg]
        · rw [if_neg hg]
          have hm := mergeSplitsAux_count a ha goodAcc [] [] 0
          simp only [List.flatten_nil, List.count_append] at hm
          simp only [mergeSplits]
          omega
      have hrec : s.count a ≤ (if hn then r s else [s]).flatten.count a := by
        by_cases hb : hn = true
        · rw [if_pos hb]
          exact hr s
        · rw [if_neg hb]
          simp
      have h3 := ih [] ((chunksAcc ++ (if goodAcc.isEmpty then [] else mergeSplits goodAcc))
        ++ (if hn then r s else [s]))
      simp only [List.flatten_append, List.flatten_cons, List.flatten_nil,
        List.count_append, List.append_nil] at h3 ⊢
      omega

/-- The recursive splitter never loses an occurrence of a non-whitespace
character. -/
theorem splitRecAux_count (a : Char) (ha : isWS a = false) :
    ∀ fuel seps text, text.count a ≤ (splitRecAux fuel seps text).flatten.count a := by
  intro fuel
  induction fuel with
  | zero =>
    intro seps text
    simp [splitRecAux]
  | succ fuel ih =>
    intro seps text
    simp only [splitRecAux]
    have hflat : ((if (pickSeparator seps text).1 == "" then text.map (fun c => [c])
        else splitKeepSep (pickSeparator seps text).1 text).filter
          (fun s => !s.isEmpty)).flatten = text := by
      rw [flatten_filter_ne_empty]
      by_cases hq : ((pickSeparator seps text).1 == "") = true
      · rw [if_pos hq, flatten_map_singleton]
      · rw [if_neg hq]
        simp only [splitKeepSep]
        rw [splitKeepSepAux_flatten]
        rfl
    have h3 := processSplits_count (splitRecAux fuel (pickSeparator seps text).2)
      (!(pickSeparator seps text).2.isEmpty) a ha (fun s => ih _ s)
      ((if (pickSeparator seps text).1 == "" then text.map (fun c => [c])
        else splitKeepSep (pickSeparator seps text).1 text).filter
          (fun s => !s.isEmpty)) [] []
    rw [hflat] at h3
    simpa using h3

/-- A prefix of an appended list is either a prefix of the left part or
extends it into the right part. -/
theorem prefix_append_split (P A B : List Char) (h : P <+: A ++ B) :
    P <+: A ∨ ∃ c P3, P = A ++ c :: P3 ∧ (c :: P3) <+: B := by
  rcases List.prefix_or_prefix_of_prefix h (List.prefix_append A B) with h1 | h1
  · exact Or.inl h1
  · obtain ⟨t, ht⟩ := h1
    cases t with
    | nil =>
      left
      rw [← ht]
      simp
    | cons c P3 =>
      right
      refine ⟨c, P3, ht.symm, ?_⟩
      rw [← ht] at h
      exact (List.prefix_append_right_inj A).mp h

/-- Stripping keeps a nonempty all-non-whitespace prefix. -/
theorem stripChars_prefix (P l : List Char) (hP : P ≠ [])
    (hPws : ∀ c ∈ P, isWS c = false) (h : P <+: l) :
    P <+: stripChars l := by
  unfold stripChars
  have hd : l.dropWhile isWS = l := by
    cases hp : P with
    | nil => exact absurd hp hP
    | cons c P1 =>
      obtain ⟨t, ht⟩ := h
      rw [hp] at ht
      have hc : isWS c = false := hPws c (by rw [hp]; exact List.mem_cons_self c P1)
      rw [← ht, List.cons_append, List.dropWhile_cons, hc]
      simp
  rw [hd]
  have hsplit : (l.reverse.dropWhile isWS).reverse ++ (l.reverse.takeWhile isWS).reverse = l := by
    rw [← List.reverse_append, List.takeWhile_append_dropWhile, List.reverse_reverse]
  rw [← hsplit] at h
  rcases prefix_append_split P _ _ h with h1 | ⟨c, P3, hPeq, hcB⟩
  · exact h1
  · have hcmem : c ∈ (l.reverse.takeWhile isWS).reverse :=
      List.IsPrefix.mem (List.mem_cons_self c P3) hcB
    rw [List.mem_reverse] at hcmem
    have hws := List.mem_takeWhile_imp hcmem
    have hcP : c ∈ P := by
      rw [hPeq]
      exact List.mem_append_right _ (List.mem_cons_self c P3)
    rw [hPws c hcP] at hws
    exact absurd hws (by decide)

/-- The first piece of a separator cut keeps a prefix the separator head
cannot touch. -/
theorem splitKeepSepAux_head (c₀ : Char) (sep2 : List Char) (P : List Char)
    (hc : c₀ ∉ P) :
    ∀ fuel cur rem, P <+: cur ++ rem →
      ∃ t rest, splitKeepSepAux (c₀ :: sep2) fuel cur rem = t :: rest ∧ P <+: t := by
  intro fuel
  induction fuel with
  | zero =>
    intro cur rem h
    cases rem with
    | nil =>
      rw [List.append_nil] at h
      exact ⟨cur, [], by simp [splitKeepSepAux], h⟩
    | cons c rest =>
      exact ⟨cur ++ (c :: rest), [], by simp [splitKeepSepAux], h⟩
  | succ fuel ih =>
    intro cur rem h
    cases rem with
    | nil =>
      rw [List.append_nil] at h
      exact ⟨cur, [], by simp [splitKeepSepAux], h⟩
    | cons c rest =>
      by_cases hp : (c₀ :: sep2).isPrefixOf (c :: rest) = true
      · have hPc : P <+: cur := by
          rcases prefix_append_split P cur (c :: rest) h with h1 | ⟨c2, P3, hPeq, hcB⟩
          · exact h1
          · obtain ⟨t2, ht2⟩ := hcB
            have hc2 : c2 = c := by
              have := congrArg (fun l => l.head?) ht2
              simpa using this
            obtain ⟨t3, ht3⟩ := List.isPrefixOf_iff_prefix.mp hp
            have hc0 : c₀ = c := by
              have := congrArg (fun l => l.head?) ht3
              simpa using this
            have hfin : c₀ ∈ P := by
              rw [hc0, ← hc2, hPeq]
              exact List.mem_append_right _ (List.mem_cons_self c2 P3)
            exact absurd hfin hc
        refine ⟨cur, splitKeepSepAux (c₀ :: sep2) fuel (c₀ :: sep2)
          ((c :: rest).drop (c₀ :: sep2).length), ?_, hPc⟩
        simp only [splitKeepSepAux]
        rw [if_pos hp]
      · have h2 : P <+: (cur ++ [c]) ++ rest := by
          rw [List.append_assoc]
          exact h
        obtain ⟨t, rest2, heq, hPt⟩ := ih (cur ++ [c]) rest h2
        refine ⟨t, rest2, ?_, hPt⟩
        simp only [splitKeepSepAux]
        rw [if_neg hp]
        exact heq

/-- After filtering empties, the cut of a prefixed text still starts
with a piece carrying the prefix. -/
theorem splitKeepSep_filter_head (s : String) (c₀ : Char) (sep2 : List Char)
    (P text : List Char) (hs : s.data = c₀ :: sep2) (hc : c₀ ∉ P) (hP : P ≠ [])
    (h : P <+: text) :
    ∃ t rest, (splitKeepSep s text).filter (fun x => !x.isEmpty) = t :: rest ∧ P <+: t := by
  have h0 : P <+: ([] : List Char) ++ text := h
  obtain ⟨t, rest2, heq, hPt⟩ := splitKeepSepAux_head c₀ sep2 P hc text.length [] text h0
  have ht : t ≠ [] := fun hnil => hP (List.prefix_nil.mp (hnil ▸ hPt))
  refine ⟨t, rest2.filter (fun x => !x.isEmpty), ?_, hPt⟩
  simp only [splitKeepSep, hs]
  rw [heq, List.filter_cons]
  have hie : (!t.isEmpty) = true := by
    cases t with
    | nil => exact absurd rfl ht
    | cons a b => rfl
  rw [hie, if_pos rfl]

/-- The merge loop only ever appends after the already emitted chunks. -/
theorem mergeSplitsAux_append :
    ∀ splits docsAcc currentDoc total, ∃ tail,
      mergeSplitsAux docsAcc currentDoc total splits = docsAcc ++ tail := by
  intro splits
  induction splits with
  | nil =>
    intro docsAcc currentDoc total
    exact ⟨(match joinDocs currentDoc with | some doc => [doc] | none => []),
      by simp only [mergeSplitsAux]⟩
  | cons d rest ih =>
    intro docsAcc currentDoc total
    simp only [mergeSplitsAux]
    by_cases h1 : total + d.length > 1000
    · rw [if_pos h1]
      by_cases h2 : currentDoc.isEmpty = true
      · rw [if_pos h2]
        exact ih docsAcc _ _
      · rw [if_neg h2]
        obtain ⟨t, ht⟩ := ih
          (docsAcc ++ (match joinDocs currentDoc with | some doc => [doc] | none => []))
          ((popDocs d.length currentDoc total).1 ++ [d])
          ((popDocs d.length currentDoc total).2 + d.length)
        exact ⟨_, by rw [ht, List.append_assoc]⟩
    · rw [if_neg h1]
      exact ih docsAcc _ _

/-- If the pending chunk starts with a piece carrying the prefix, the
merge loop emits a first chunk carrying the prefix. -/
theorem mergeSplitsAux_head_prefixed (P : List Char) (hP : P ≠ [])
    (hPws : ∀ c ∈ P, isWS c = false) :
    ∀ splits cds cdoc total, P <+: cdoc →
      ∃ d ds, mergeSplitsAux [] (cdoc :: cds) total splits = d :: ds ∧ P <+: d := by
  intro splits
  induction splits with
  | nil =>
    intro cds cdoc total h
    have hflat : P <+: (cdoc :: cds).flatten := by
      rw [List.flatten_cons]
      exact h.trans (List.prefix_append _ _)
    have hstrip := stripChars_prefix P _ hP hPws hflat
    have hne : stripChars (cdoc :: cds).flatten ≠ [] :=
      fun hnil => hP (List.prefix_nil.mp (hnil ▸ hstrip))
    have hie : ¬((stripChars (cdoc :: cds).flatten).isEmpty = true) := by
      rw [List.isEmpty_iff]
      exact hne
    have hj : joinDocs (cdoc :: cds) = some (stripChars (cdoc :: cds).flatten) := by
      simp only [joinDocs]
      rw [if_neg hie]
    refine ⟨stripChars (cdoc :: cds).flatten, [], ?_, hstrip⟩
    simp only [mergeSplitsAux, hj, List.nil_append]
  | cons d rest ih =>
    intro cds cdoc total h
    simp only [mergeSplitsAux]
    by_cases h1 : total + d.length > 1000
    · rw [if_pos h1]
      rw [if_neg (by simp : ¬((cdoc :: cds).isEmpty = true))]
      have hflat : P <+: (cdoc :: cds).flatten := by
        rw [List.flatten_cons]
        exact h.trans (List.prefix_append _ _)
      have hstrip := stripChars_prefix P _ hP hPws hflat
      have hne : stripChars (cdoc :: cds).flatten ≠ [] :=
        fun hnil => hP (List.prefix_nil.mp (hnil ▸ hstrip))
      have hie : ¬((stripChars (cdoc :: cds).flatten).isEmpty = true) := by
        rw [List.isEmpty_iff]
        exact hne
      have hj : joinDocs (cdoc :: cds) = some (stripChars (cdoc :: cds).flatten) := by
        simp only [joinDocs]
        rw [if_neg hie]
      obtain ⟨tail, htail⟩ := mergeSplitsAux_append rest
        ([] ++ [stripChars (cdoc :: cds).flatten])
        ((popDocs d.length (cdoc :: cds) total).1 ++ [d])
        ((popDocs d.length (cdoc :: cds) total).2 + d.length)
      refine ⟨stripChars (cdoc :: cds).flatten, tail, ?_, hstrip⟩
      simp only [hj]
      rw [htail]
      simp
    · rw [if_neg h1]
      exact ih (cds ++ [d]) cdoc (total + d.length) h

/-- A merge started on a prefixed first piece emits a prefixed first
chunk. -/
theorem mergeSplits_head_prefixed (P : List Char) (hP : P ≠ [])
    (hPws : ∀ c ∈ P, isWS c = false) (s₀ : List Char) (g : List (List Char))
    (h : P <+: s₀) :
    ∃ d ds, mergeSplits (s₀ :: g) = d :: ds ∧ P <+: d := by
  simp only [mergeSplits, mergeSplitsAux]
  by_cases h1 : 0 + s₀.length > 1000
  · rw [if_pos h1]
    have hie : (([] : List (List Char))).isEmpty = true := rfl
    rw [if_pos hie]
    exact mergeSplitsAux_head_prefixed P hP hPws g [] s₀ _ h
  · rw [if_neg h1]
    exact mergeSplitsAux_head_prefixed P hP hPws g [] s₀ _ h

/-- During the character-level merge the first flush happens only after
1000 characters, so a short prefix survives in the first chunk. -/
theorem mergeSplitsAux_singleton_head (P : List Char) (hP : P ≠ [])
    (hPws : ∀ c ∈ P, isWS c = false) (hPlen : P.length ≤ 1000) :
    ∀ (l : List Char) (cur : List (List Char)) (total : Nat),
      total = cur.flatten.length → P <+: cur.flatten ++ l →
      ∃ d ds, mergeSplitsAux [] cur total (l.map fun c => [c]) = d :: ds ∧ P <+: d := by
  intro l
  induction l with
  | nil =>
    intro cur total htot h
    rw [List.append_nil] at h
    have hstrip := stripChars_prefix P _ hP hPws h
    have hne : stripChars cur.flatten ≠ [] :=
      fun hnil => hP (List.prefix_nil.mp (hnil ▸ hstrip))
    have hie : ¬((stripChars cur.flatten).isEmpty = true) := by
      rw [List.isEmpty_iff]
      exact hne
    have hj : joinDocs cur = some (stripChars cur.flatten) := by
      simp only [joinDocs]
      rw [if_neg hie]
    refine ⟨stripChars cur.flatten, [], ?_, hstrip⟩
    simp only [List.map_nil, mergeSplitsAux, hj, List.nil_append]
  | cons c l2 ih =>
    intro cur total htot h
    simp only [List.map_cons, mergeSplitsAux]
    by_cases h1 : total + [c].length > 1000
    · have h1n : 1000 < total + 1 := by simpa using h1
      have hlen : 1000 ≤ cur.flatten.length := by omega
      have hcur : cur.isEmpty = false := by
        cases hc : cur with
        | nil =>
          rw [hc] at htot
          simp at htot
          omega
        | cons a b => rfl
      rw [if_pos h1, if_neg (by rw [hcur]; simp : ¬(cur.isEmpty = true))]
      have hPcur : P <+: cur.flatten := by
        rcases prefix_append_split P cur.flatten (c :: l2) h with hx | ⟨c2, P3, hPeq, hcB⟩
        · exact hx
        · have hPlen2 : P.length = cur.flatten.length + (P3.length + 1) := by
            rw [hPeq, List.length_append, List.length_cons]
          omega
      have hstrip := stripChars_prefix P _ hP hPws hPcur
      have hne : stripChars cur.flatten ≠ [] :=
        fun hnil => hP (List.prefix_nil.mp (hnil ▸ hstrip))
      have hie : ¬((stripChars cur.flatten).isEmpty = true) := by
        rw [List.isEmpty_iff]
        exact hne
      have hj : joinDocs cur = some (stripChars cur.flatten) := by
        simp only [joinDocs]
        rw [if_neg hie]
      obtain ⟨tail, htail⟩ := mergeSplitsAux_append (l2.map fun c => [c])
        ([] ++ [stripChars cur.flatten])
        ((popDocs [c].length cur total).1 ++ [[c]])
        ((popDocs [c].length cur total).2 + [c].length)
      refine ⟨stripChars cur.flatten, tail, ?_, hstrip⟩
      simp only [hj]
      rw [htail]
      simp
    · rw [if_neg h1]
      have htot2 : total + [c].length = (cur ++ [[c]]).flatten.length := by
        simp [htot]
      have h2 : P <+: (cur ++ [[c]]).flatten ++ l2 := by
        simp only [List.flatten_append, List.flatten_cons, List.flatten_nil,
          List.append_nil]
        rw [List.append_assoc]
        exact h
      exact ih (cur ++ [[c]]) (total + [c].length) htot2 h2

/-- The piece loop only ever appends after the already emitted chunks. -/
theorem processSplits_append (r : List Char → List (List Char)) (hn : Bool) :
    ∀ splits goodAcc chunksAcc, ∃ tail,
      processSplits r hn goodAcc chunksAcc splits = chunksAcc ++ tail := by
  intro splits
  induction splits with
  | nil =>
    intro g c
    exact ⟨(if g.isEmpty then [] else mergeSplits g), by simp only [processSplits]⟩
  | cons s rest ih =>
    intro g c
    simp only [processSplits]
    by_cases h1 : s.length < 1000
    · rw [if_pos h1]
      exact ih (g ++ [s]) c
    · rw [if_neg h1]
      obtain ⟨t, ht⟩ := ih []
        ((c ++ (if g.isEmpty then [] else mergeSplits g)) ++ (if hn then r s else [s]))
      exact ⟨(if g.isEmpty then [] else mergeSplits g) ++ ((if hn then r s else [s]) ++ t),
        by rw [ht, List.append_assoc, List.append_assoc]⟩

/-- Once a prefixed piece heads the pending good pieces, the piece loop
emits a first chunk carrying the prefix. -/
theorem processSplits_good_head (r : List Char → List (List Char)) (hn : Bool)
    (P : List Char) (hP : P ≠ []) (hPws : ∀ c ∈ P, isWS c = false) :
    ∀ splits g s₀, P <+: s₀ →
      ∃ d ds, processSplits r hn (s₀ :: g) [] splits = d :: ds ∧ P <+: d := by
  intro splits
  induction splits with
  | nil =>
    intro g s₀ h
    simp only [processSplits]
    rw [if_neg (by simp : ¬((s₀ :: g).isEmpty = true))]
    obtain ⟨d, ds, hm, hPd⟩ := mergeSplits_head_prefixed P hP hPws s₀ g h
    refine ⟨d, ds, ?_, hPd⟩
    rw [List.nil_append]
    exact hm
  | cons s rest ih =>
    intro g s₀ h
    simp only [processSplits]
    by_cases h1 : s.length < 1000
    · rw [if_pos h1]
      exact ih (g ++ [s]) s₀ h
    · rw [if_neg h1]
      rw [if_neg (by simp : ¬((s₀ :: g).isEmpty = true))]
      obtain ⟨d, ds, hm, hPd⟩ := mergeSplits_head_prefixed P hP hPws s₀ g h
      obtain ⟨tail, htail⟩ := processSplits_append r hn rest []
        (([] ++ mergeSplits (s₀ :: g)) ++ (if hn then r s else [s]))
      refine ⟨d, ds ++ ((if hn then r s else [s]) ++ tail), ?_, hPd⟩
      rw [htail, hm]
      simp

/-- The piece loop from a clean state, on a prefixed first piece, emits
a first chunk carrying the prefix, provided recursion on an oversized
first piece does. -/
theorem processSplits_head (r : List Char → List (List Char)) (hn : Bool)
    (P : List Char) (hP : P ≠ []) (hPws : ∀ c ∈ P, isWS c = false)
    (s₀ : List Char) (rest : List (List Char)) (h : P <+: s₀)
    (hbig : 1000 ≤ s₀.length →
      ∃ d ds, (if hn then r s₀ else [s₀]) = d :: ds ∧ P <+: d) :
    ∃ d ds, processSplits r hn [] [] (s₀ :: rest) = d :: ds ∧ P <+: d := by
  simp only [processSplits]
  by_cases h1 : s₀.length < 1000
  · rw [if_pos h1]
    exact processSplits_good_head r hn P hP hPws rest [] s₀ h
  · rw [if_neg h1]
    have hg : (([] : List (List Char))).isEmpty = true := rfl
    rw [if_pos hg]
    obtain ⟨d, ds, hr, hPd⟩ := hbig (by omega)
    obtain ⟨tail, htail⟩ := processSplits_append r hn rest []
      (([] ++ []) ++ (if hn then r s₀ else [s₀]))
    refine ⟨d, ds ++ tail, ?_, hPd⟩
    rw [htail, hr]
    simp

/-- When every piece is small the piece loop is exactly one merge. -/
theorem processSplits_all_small (r : List Char → List (List Char)) (hn : Bool) :
    ∀ splits goodAcc chunksAcc, (∀ s ∈ splits, s.length < 1000) →
      processSplits r hn goodAcc chunksAcc splits
        = chunksAcc ++ (if (goodAcc ++ splits).isEmpty then []
            else mergeSplits (goodAcc ++ splits)) := by
  intro splits
  induction splits with
  | nil =>
    intro g c hall
    simp only [processSplits, List.append_nil]
  | cons s rest ih =>
    intro g c hall
    simp only [processSplits]
    rw [if_pos (hall s (List.mem_cons_self s rest))]
    rw [ih (g ++ [s]) c (fun x hx => hall x (List.mem_cons_of_mem s hx))]
    rw [List.append_assoc]
    rfl

/-- Character-level pieces are all nonempty, so the filter keeps them. -/
theorem filter_map_singleton (l : List Char) :
    (l.map fun c => [c]).filter (fun s => !s.isEmpty) = l.map fun c => [c] := by
  induction l with
  | nil => rfl
  | cons c rest ih => simp [ih]

/-- The chosen separator is the empty fallback or comes from the list,
and the remaining separators come from the list. -/
theorem pickSeparator_spec :
    ∀ (seps : List String) (text : List Char),
      pickSeparator seps text = ("", []) ∨
      ((pickSeparator seps text).1 ∈ seps ∧
        ∀ s ∈ (pickSeparator seps text).2, s ∈ seps) := by
  intro seps
  induction seps with
  | nil =>
    intro text
    exact Or.inl rfl
  | cons s rest ih =>
    intro text
    simp only [pickSeparator]
    by_cases h1 : (s == "") = true
    · rw [if_pos h1]
      exact Or.inl rfl
    · rw [if_neg h1]
      by_cases h2 : containsSub s.data text = true
      · rw [if_pos h2]
        right
        exact ⟨List.mem_cons_self s rest, fun x hx => List.mem_cons_of_mem s hx⟩
      · rw [if_neg h2]
        rcases ih text with h | ⟨ha, hb⟩
        · exact Or.inl h
        · exact Or.inr ⟨List.mem_cons_of_mem s ha,
            fun x hx => List.mem_cons_of_mem s (hb x hx)⟩

/-- The recursive splitter always emits a first chunk carrying any
nonempty non-whitespace prefix of at most 1000 characters that no used
separator can start inside. -/
theorem splitRecAux_head (P : List Char) (hP : P ≠ [])
    (hPws : ∀ c ∈ P, isWS c = false) (hPlen : P.length ≤ 1000) :
    ∀ fuel seps text, P <+: text →
      (∀ s ∈ seps, s = "" ∨ ∃ c₀ t, s.data = c₀ :: t ∧ c₀ ∉ P) →
      ∃ d ds, splitRecAux fuel seps text = d :: ds ∧ P <+: d := by
  intro fuel
  induction fuel with
  | zero =>
    intro seps text h hseps
    exact ⟨text, [], by simp [splitRecAux], h⟩
  | succ fuel ih =>
    intro seps text h hseps
    simp only [splitRecAux]
    by_cases hq : ((pickSeparator seps text).1 == "") = true
    · rw [if_pos hq]
      rw [filter_map_singleton]
      rw [processSplits_all_small (splitRecAux fuel (pickSeparator seps text).2)
        (!(pickSeparator seps text).2.isEmpty) (text.map fun c => [c]) [] []
        (by
          intro x hx
          obtain ⟨c, hc, hxc⟩ := List.mem_map.mp hx
          rw [← hxc]
          simp only [List.length_cons, List.length_nil]
          omega)]
      cases htext : text with
      | nil =>
        rw [htext] at h
        exact absurd (List.prefix_nil.mp h) hP
      | cons c t2 =>
        rw [htext] at h
        simp only [List.nil_append, List.map_cons]
        rw [if_neg (by simp : ¬((([c] :: t2.map fun c => [c]) : List (List Char)).isEmpty = true))]
        have h0 : P <+: ([] : List (List Char)).flatten ++ (c :: t2) := h
        obtain ⟨d, ds, hm, hPd⟩ :=
          mergeSplitsAux_singleton_head P hP hPws hPlen (c :: t2) [] 0 rfl h0
        refine ⟨d, ds, ?_, hPd⟩
        simp only [mergeSplits, List.map_cons] at hm
        exact hm
    · rw [if_neg hq]
      rcases pickSeparator_spec seps text with hps | ⟨hmem, hsub⟩
      · exfalso
        apply hq
        rw [hps]
        decide
      · rcases hseps _ hmem with he | ⟨c₀, t, hdata, hc0⟩
        · exfalso
          apply hq
          rw [he]
          decide
        · obtain ⟨t0, rest0, hsk, hPt⟩ := splitKeepSep_filter_head
            (pickSeparator seps text).1 c₀ t P text hdata hc0 hP h
          rw [hsk]
          refine processSplits_head _ _ P hP hPws t0 rest0 hPt ?_
          intro hlen
          by_cases hn2 : (!(pickSeparator seps text).2.isEmpty) = true
          · rw [if_pos hn2]
            exact ih (pickSeparator seps text).2 t0 hPt (fun s hs => hseps s (hsub s hs))
          · rw [if_neg hn2]
            exact ⟨t0, [], rfl, hPt⟩

/-- Joining strings concatenates their character data. -/
theorem foldl_append_data (l : List String) :
    ∀ acc : String, (l.foldl (fun r s => r ++ s) acc).data
      = acc.data ++ (l.map String.data).flatten := by
  induction l with
  | nil =>
    intro acc
    simp
  | cons s rest ih =>
    intro acc
    simp only [List.foldl_cons, List.map_cons, List.flatten_cons]
    rw [ih (acc ++ s), String.data_append, List.append_assoc]

/-- The data of a joined list of strings is the flattened data. -/
theorem join_data (l : List String) :
    (String.join l).data = (l.map String.data).flatten := by
  have h := foldl_append_data l ""
  simpa [String.join] using h

/-- Mapping chunk strings back to their character data is the identity
on the splitter output. -/
theorem map_data_map_mk (L : List (List Char)) :
    (L.map String.mk).map String.data = L := by
  induction L with
  | nil => rfl
  | cons a b ihb =>
    simp only [List.map_cons]
    rw [ihb]

/-- C10 amended: store_episode_content splits the string obtained by
prepending the word Content, a colon and a space to the episode content,
not the raw content, so for every episode the first indexed chunk starts
with the eight characters of Content and the colon (the trailing space of
the prefix can itself be consumed as a split separator, so it need not
survive), and the concatenation of the indexed chunk texts is never equal
to the stored content: it keeps the extra colon of the prefix, hence is
not a pure segmentation of the content. -/
theorem chunks_carry_content_prefix (ep : Episode) :
    (∃ c rest, episodeChunks ep = c :: rest ∧ "Content:".data <+: c.data) ∧
    String.join (episodeChunks ep) ≠ ep.content := by
  have hseps : ∀ s ∈ separators,
      s = "" ∨ ∃ c₀ t, s.data = c₀ :: t ∧ c₀ ∉ "Content:".data := by
    intro s hs
    simp only [separators, List.mem_cons, List.not_mem_nil, or_false] at hs
    rcases hs with rfl | rfl | rfl | rfl | rfl
    · exact Or.inr ⟨'\n', ['\n'], by decide, by decide⟩
    · exact Or.inr ⟨'\n', [], by decide, by decide⟩
    · exact Or.inr ⟨'.', [' '], by decide, by decide⟩
    · exact Or.inr ⟨' ', [], by decide, by decide⟩
    · exact Or.inl rfl
  have hpre : "Content:".data <+: ("Content: " ++ ep.content).data := by
    rw [String.data_append]
    exact ⟨' ' :: ep.content.data, rfl⟩
  obtain ⟨d, ds, hsp, hPd⟩ := splitRecAux_head "Content:".data (by decide) (by decide)
    (by decide) separators.length separators ("Content: " ++ ep.content).data hpre hseps
  constructor
  · refine ⟨String.mk d, ds.map String.mk, ?_, hPd⟩
    simp only [episodeChunks, splitText]
    rw [hsp]
    rfl
  · intro hjoin
    have hd := congrArg String.data hjoin
    rw [join_data] at hd
    have hmap : (episodeChunks ep).map String.data
        = splitRecAux separators.length separators ("Content: " ++ ep.content).data := by
      simp only [episodeChunks, splitText]
      exact map_data_map_mk _
    have hcount := splitRecAux_count ':' (by decide) separators.length separators
      ("Content: " ++ ep.content).data
    rw [← hmap, hd] at hcount
    rw [String.data_append, List.count_append] at hcount
    have h1 : List.count ':' "Content: ".data = 1 := by decide
    omega

/-- C10 counterexample to the original claim: for the episode whose
content is a single 1000-character word, the splitter cuts at the space
of the prepended prefix itself, so the first indexed chunk is exactly the
eight characters of Content and the colon, without the trailing space;
the claim that every first chunk begins with Content, colon and space is
therefore false of the program. -/
theorem chunking_prefix_space_cex :
    (episodeChunks zEp).head? = some "Content:" ∧
    ¬("Content: ".data <+: ("Content:" : String).data) := by
  constructor
  · decide
  · decide

/-- C7 amended: when at most 10000 vectors of the episode lie in the
namespace (10000 is the hard-coded top_k of the delete query), a delete
call that returns True leaves no match for that episode id in that
namespace, whatever top_k a follow-up query uses. -/
theorem delete_then_query_zero_matches (env : PineconeEnv) (store : Store)
    (epid ns : String) (k : Nat)
    (hcount : (store.filter (isEpisodeVector ns epid)).length ≤ 10000)
    (hok : (pinecone_delete_episode env store epid ns).1 = true) :
    episodeMatches (pinecone_delete_episode env store epid ns).2 ns epid k = [] := by
  have htake : episodeMatches store ns epid 10000
      = store.filter (isEpisodeVector ns epid) := by
    rw [episodeMatches, List.take_of_length_le hcount]
  by_cases hq : env.queryOk = true
  · by_cases hempty :
        ((episodeMatches store ns epid 10000).map (fun v => v.id)).isEmpty = true
    · have hst : (pinecone_delete_episode env store epid ns).2 = store := by
        rw [pinecone_delete_episode, if_pos hq, if_pos hempty]
      have hfil : store.filter (isEpisodeVector ns epid) = [] := by
        have hmapnil := List.isEmpty_iff.mp hempty
        rw [htake] at hmapnil
        exact List.map_eq_nil_iff.mp hmapnil
      rw [hst, episodeMatches, hfil, List.take_nil]
    · by_cases hdel : env.deleteOk = true
      · have hst : (pinecone_delete_episode env store epid ns).2
            = deleteIds store ns
                ((episodeMatches store ns epid 10000).map (fun v => v.id)) := by
          rw [pinecone_delete_episode, if_pos hq, if_neg hempty, if_pos hdel]
        have hfil : (deleteIds store ns
            ((episodeMatches store ns epid 10000).map (fun v => v.id))).filter
              (isEpisodeVector ns epid) = [] := by
          rw [List.filter_eq_nil_iff]
          intro v hv hp
          have hv2 := List.mem_filter.mp hv
          have hmem : v ∈ episodeMatches store ns epid 10000 := by
            rw [htake]
            exact List.mem_filter.mpr ⟨hv2.1, hp⟩
          have hid : v.id ∈ (episodeMatches store ns epid 10000).map (fun v => v.id) :=
            List.mem_map_of_mem _ hmem
          have hcont : ((episodeMatches store ns epid 10000).map
              (fun v => v.id)).contains v.id = true :=
            List.elem_eq_true_of_mem hid
          have hp2 : (v.ns == ns && v.metadata.episode_id == epid) = true := hp
          have hns : (v.ns == ns) = true := (Bool.and_eq_true_iff.mp hp2).1
          have := hv2.2
          rw [hns, hcont] at this
          simp at this
        rw [hst, episodeMatches, hfil, List.take_nil]
      · exfalso
        rw [pinecone_delete_episode, if_pos hq, if_neg hempty, if_neg hdel] at hok
        exact Bool.false_ne_true hok
  · exfalso
    rw [pinecone_delete_episode, if_neg hq] at hok
    exact Bool.false_ne_true hok

/-- Witness for the delete-then-query theorem at a concrete store. -/
theorem delete_then_query_zero_matches_witness :
    (wStore7.filter (isEpisodeVector "ns7" "ep7")).length ≤ 10000 ∧
    (pinecone_delete_episode envAllOk wStore7 "ep7" "ns7").1 = true ∧
    episodeMatches (pinecone_delete_episode envAllOk wStore7 "ep7" "ns7").2
      "ns7" "ep7" 10 = [] :=
  ⟨by decide, by decide,
    delete_then_query_zero_matches envAllOk wStore7 "ep7" "ns7" 10
      (by decide) (by decide)⟩

/-- Every vector of the large store matches the delete filter of its
episode. -/
theorem bigStore_filter_self :
    bigStore.filter (isEpisodeVector "ns_big" "epBig") = bigStore :=
  List.filter_eq_self.mpr (fun v hv => by
    obtain ⟨i, _, rfl⟩ := List.mem_map.mp hv
    rfl)

/-- Ids of the large store are distinct across indices. -/
theorem staleId_inj {i j : Nat} (h : staleId i = staleId j) : i = j := by
  have hl := congrArg (fun s => s.data.length) h
  simpa [staleId] using hl

/-- C7 counterexample: with 10001 vectors of one episode in one
namespace, the delete query returns only 10000 matches, so the delete
call reports True while one vector of the episode survives it and is
returned by a follow-up query filtered by the episode id. -/
theorem delete_top_k_bound_cex :
    (pinecone_delete_episode envAllOk bigStore "epBig" "ns_big").1 = true ∧
    episodeMatches (pinecone_delete_episode envAllOk bigStore "epBig" "ns_big").2
      "ns_big" "epBig" 10000 ≠ [] := by
  have hm : episodeMatches bigStore "ns_big" "epBig" 10000
      = (List.range 10000).map bigVector := by
    rw [episodeMatches, bigStore_filter_self, bigStore, ← List.map_take,
      List.take_range]
    norm_num
  have hids : (episodeMatches bigStore "ns_big" "epBig" 10000).map (fun v => v.id)
      = (List.range 10000).map staleId := by
    rw [hm, List.map_map]
    rfl
  have hne : ((episodeMatches bigStore "ns_big" "epBig" 10000).map
      (fun v => v.id)).isEmpty = true → False := by
    rw [hids]
    simp
  have hrun : pinecone_delete_episode envAllOk bigStore "epBig" "ns_big"
      = (true, deleteIds bigStore "ns_big"
          ((episodeMatches bigStore "ns_big" "epBig" 10000).map (fun v => v.id))) := by
    have hq : envAllOk.queryOk = true := rfl
    have hd : envAllOk.deleteOk = true := rfl
    rw [pinecone_delete_episode, if_pos hq, if_neg hne, if_pos hd]
  refine ⟨by rw [hrun], ?_⟩
  rw [hrun]
  intro hnil
  have hcontains : ((List.range 10000).map staleId).contains (bigVector 10000).id
      = false := by
    cases hcb : ((List.range 10000).map staleId).contains (bigVector 10000).id with
    | false => rfl
    | true =>
      exfalso
      have hc2 : (bigVector 10000).id ∈ (List.range 10000).map staleId :=
        List.mem_of_elem_eq_true hcb
      obtain ⟨i, hi, hei⟩ := List.mem_map.mp hc2
      have hij : i = 10000 := staleId_inj hei
      rw [hij] at hi
      have := List.mem_range.mp hi
      omega
  have hmem : bigVector 10000 ∈ deleteIds bigStore "ns_big"
      ((episodeMatches bigStore "ns_big" "epBig" 10000).map (fun v => v.id)) := by
    rw [deleteIds, hids]
    apply List.mem_filter.mpr
    refine ⟨List.mem_map_of_mem _ (List.mem_range.mpr (by omega)), ?_⟩
    rw [hcontains]
    decide
  have hmem2 : bigVector 10000 ∈ (deleteIds bigStore "ns_big"
      ((episodeMatches bigStore "ns_big" "epBig" 10000).map
        (fun v => v.id))).filter (isEpisodeVector "ns_big" "epBig") :=
    List.mem_filter.mpr ⟨hmem, rfl⟩
  rw [episodeMatches] at hnil
  rcases List.take_eq_nil_iff.mp hnil with h | h
  · exact absurd h (by omega)
  · exact absurd hmem2 (by rw [h]; exact List.not_mem_nil _)

/-- A failing database update leaves the episode table unchanged. -/
theorem db_update_none_unchanged (ok : Bool) (db : DB) (epid t c : String)
    (h : (DatabaseService.update_episode ok db epid t c).1 = none) :
    (DatabaseService.update_episode ok db epid t c).2 = db := by
  cases hfind : DatabaseService.get_episode_by_id db epid with
  | none => simp only [DatabaseService.update_episode, hfind]
  | some ep =>
    simp only [DatabaseService.update_episode, hfind] at h ⊢
    by_cases hok : ok = true
    · rw [if_pos hok] at h
      simp at h
    · rw [if_neg hok]

/-- After the map-replace of a successful update, looking the id up in
the episode table yields the new row. -/
theorem find?_replace_row (l : List Episode) (epid : String) (ep ep2 : Episode)
    (hfind : l.find? (fun e => e.id == epid) = some ep)
    (hid : (ep2.id == epid) = true) :
    (l.map (fun e => if e.id == epid then ep2 else e)).find? (fun e => e.id == epid)
      = some ep2 := by
  induction l with
  | nil => simp at hfind
  | cons a l ih =>
    by_cases ha : (a.id == epid) = true
    · rw [List.map_cons, if_pos ha]
      exact List.find?_cons_of_pos _ hid
    · have hcons : (a :: l).find? (fun e => e.id == epid)
          = l.find? (fun e => e.id == epid) := List.find?_cons_of_neg _ ha
      have hfind2 : l.find? (fun e => e.id == epid) = some ep := by
        rwa [hcons] at hfind
      have hcons2 : (a :: (l.map (fun e => if e.id == epid then ep2 else e))).find?
            (fun e => e.id == epid)
          = (l.map (fun e => if e.id == epid then ep2 else e)).find?
            (fun e => e.id == epid) := List.find?_cons_of_neg _ ha
      rw [List.map_cons, if_neg ha, hcons2]
      exact ih hfind2

/-- A successful database update produces a row carrying the new title
and content, and the table then resolves the id to that row. -/
theorem db_update_some (ok : Bool) (db : DB) (epid t c : String)
    (ep2 : Episode) (db2 : DB)
    (h : DatabaseService.update_episode ok db epid t c = (some ep2, db2)) :
    ep2.title = t ∧ ep2.content = c ∧
    DatabaseService.get_episode_by_id db2 epid = some ep2 := by
  cases hfind : DatabaseService.get_episode_by_id db epid with
  | none => simp [DatabaseService.update_episode, hfind] at h
  | some ep =>
    by_cases hok : ok = true
    · simp only [DatabaseService.update_episode, hfind, if_pos hok] at h
      injection h with h1 h2
      injection h1 with h1
      have hfindl : db.episodes.find? (fun e => e.id == epid) = some ep := hfind
      have hid0 := List.find?_some hfindl
      have hid : (ep.id == epid) = true := hid0
      subst h1
      subst h2
      refine ⟨rfl, rfl, ?_⟩
      exact find?_replace_row db.episodes epid ep _ hfind hid
    · simp only [DatabaseService.update_episode, hfind, if_neg hok] at h
      simp at h

/-- A delete call that returns False leaves the index unchanged. -/
theorem pinecone_delete_failed_unchanged (env : PineconeEnv) (store : Store)
    (epid ns : String)
    (h : (pinecone_delete_episode env store epid ns).1 = false) :
    (pinecone_delete_episode env store epid ns).2 = store := by
  by_cases hq : env.queryOk = true
  · by_cases he : ((episodeMatches store ns epid 10000).map
        (fun v => v.id)).isEmpty = true
    · rw [pinecone_delete_episode, if_pos hq, if_pos he]
    · by_cases hd : env.deleteOk = true
      · rw [pinecone_delete_episode, if_pos hq, if_neg he, if_pos hd] at h
        simp at h
      · rw [pinecone_delete_episode, if_pos hq, if_neg he, if_neg hd]
  · rw [pinecone_delete_episode, if_neg hq]

/-- A storage call that returns False leaves the index unchanged. -/
theorem store_content_failed_unchanged (env : PineconeEnv) (store : Store)
    (ep : Episode) (name : String)
    (h : (store_episode_content env store ep name).1 = false) :
    (store_episode_content env store ep name).2 = store := by
  by_cases he : (env.embedDocsOk && env.upsertOk) = true
  · rw [store_episode_content, if_pos he] at h
    simp at h
  · rw [store_episode_content, if_neg he]

/-- Reduction of the update flow once the expert is found and the body is
valid: everything depends on the database result and the two Pinecone
steps, the delete being addressed at the raw expert name. -/
theorem update_episode_reduce (env : EpisodeManager.UpdateEnv) (sys : Sys)
    (expertId episodeId : String) (d : EpisodeData) (ex : Expert)
    (hex : DatabaseService.get_expert_by_id sys.db expertId = some ex)
    (hval : EpisodeManager.validate_data (some ex) (some d) = (true, "")) :
    EpisodeManager.update_episode env sys expertId episodeId (some d)
      = match DatabaseService.update_episode env.dbCommitOk sys.db episodeId
          d.title d.content with
        | (none, db2) =>
          (⟨false, 500, "Failed to update episode in database"⟩, ⟨db2, sys.store⟩)
        | (some ep, db2) =>
          let del := pinecone_delete_episode env.pineDelete sys.store episodeId ex.name
          if !del.1 then
            (⟨false, 500, "Failed to delete old episode content from Pinecone"⟩,
              ⟨db2, del.2⟩)
          else
            let st := store_episode_content env.pineStore del.2 ep ex.name
            if !st.1 then
              (⟨false, 500, "Failed to store updated episode content in Pinecone"⟩,
                ⟨db2, st.2⟩)
            else (⟨true, 200, ""⟩, ⟨db2, st.2⟩) := by
  simp only [EpisodeManager.update_episode, hex, hval, if_true]

/-- C2 amended: update_episode is not atomic and has no rollback.  If
the database update fails, the caller receives the 500 error naming the
database step and neither store changes; if the vector delete step fails
after the database update succeeded, the caller receives the 500 error
naming the delete step while the relational row already carries the new
title and content and the vector store is unchanged; if the vector store
step fails after the database update and the vector delete succeeded, the
caller receives the 500 error naming the store step while the relational
row carries the new values and the vector store is left in the
post-delete state, without the new chunks. -/
theorem update_rollback_semantics (env : EpisodeManager.UpdateEnv) (sys : Sys)
    (expertId episodeId : String) (d : EpisodeData) (ex : Expert)
    (hex : DatabaseService.get_expert_by_id sys.db expertId = some ex)
    (htitle : (EpisodeManager.pyStrip d.title == "") = false)
    (hcontent : (EpisodeManager.pyStrip d.content == "") = false) :
    ((DatabaseService.update_episode env.dbCommitOk sys.db episodeId
        d.title d.content).1 = none →
      EpisodeManager.update_episode env sys expertId episodeId (some d)
        = (⟨false, 500, "Failed to update episode in database"⟩, sys)) ∧
    (∀ ep2 db2,
      DatabaseService.update_episode env.dbCommitOk sys.db episodeId d.title d.content
          = (some ep2, db2) →
      (pinecone_delete_episode env.pineDelete sys.store episodeId ex.name).1 = false →
      EpisodeManager.update_episode env sys expertId episodeId (some d)
          = (⟨false, 500, "Failed to delete old episode content from Pinecone"⟩,
              ⟨db2, sys.store⟩) ∧
      DatabaseService.get_episode_by_id db2 episodeId = some ep2 ∧
      ep2.title = d.title ∧ ep2.content = d.content) ∧
    (∀ ep2 db2,
      DatabaseService.update_episode env.dbCommitOk sys.db episodeId d.title d.content
          = (some ep2, db2) →
      (pinecone_delete_episode env.pineDelete sys.store episodeId ex.name).1 = true →
      (store_episode_content env.pineStore
          (pinecone_delete_episode env.pineDelete sys.store episodeId ex.name).2
          ep2 ex.name).1 = false →
      EpisodeManager.update_episode env sys expertId episodeId (some d)
          = (⟨false, 500, "Failed to store updated episode content in Pinecone"⟩,
              ⟨db2, (pinecone_delete_episode env.pineDelete sys.store episodeId
                ex.name).2⟩) ∧
      DatabaseService.get_episode_by_id db2 episodeId = some ep2 ∧
      ep2.title = d.title ∧ ep2.content = d.content) := by
  have hval : EpisodeManager.validate_data (some ex) (some d) = (true, "") := by
    simp [EpisodeManager.validate_data, htitle, hcontent]
  refine ⟨?_, ?_, ?_⟩
  · intro hnone
    have hunch := db_update_none_unchanged env.dbCommitOk sys.db episodeId
      d.title d.content hnone
    rw [update_episode_reduce env sys expertId episodeId d ex hex hval]
    cases hdb : DatabaseService.update_episode env.dbCommitOk sys.db episodeId
        d.title d.content with
    | mk o db2 =>
      rw [hdb] at hnone hunch
      have ho : o = none := hnone
      have hb : db2 = sys.db := hunch
      subst ho
      subst hb
      rfl
  · intro ep2 db2 hdb hdel
    have hprops := db_update_some env.dbCommitOk sys.db episodeId d.title d.content
      ep2 db2 hdb
    have hstore := pinecone_delete_failed_unchanged env.pineDelete sys.store
      episodeId ex.name hdel
    have hres : EpisodeManager.update_episode env sys expertId episodeId (some d)
        = (⟨false, 500, "Failed to delete old episode content from Pinecone"⟩,
            ⟨db2, (pinecone_delete_episode env.pineDelete sys.store episodeId
              ex.name).2⟩) := by
      rw [update_episode_reduce env sys expertId episodeId d ex hex hval, hdb]
      simp only [hdel, Bool.not_false, if_true]
    rw [hres, hstore]
    exact ⟨rfl, hprops.2.2, hprops.1, hprops.2.1⟩
  · intro ep2 db2 hdb hdel hst
    have hprops := db_update_some env.dbCommitOk sys.db episodeId d.title d.content
      ep2 db2 hdb
    have hst2 := store_content_failed_unchanged env.pineStore
      (pinecone_delete_episode env.pineDelete sys.store episodeId ex.name).2
      ep2 ex.name hst
    have hres : EpisodeManager.update_episode env sys expertId episodeId (some d)
        = (⟨false, 500, "Failed to store updated episode content in Pinecone"⟩,
            ⟨db2, (store_episode_content env.pineStore
              (pinecone_delete_episode env.pineDelete sys.store episodeId ex.name).2
              ep2 ex.name).2⟩) := by
      rw [update_episode_reduce env sys expertId episodeId d ex hex hval, hdb]
      simp [hdel, hst]
    rw [hres, hst2]
    exact ⟨rfl, hprops.2.2, hprops.1, hprops.2.1⟩

/-- Witness for the rollback-semantics theorem: the erin scenario run
through each of the three failure modes, with the database commit
raising, then the delete-step query raising after a successful commit,
then the document-embedding call of the store step raising after a
successful commit and delete. -/
theorem update_rollback_semantics_witness :
    (EpisodeManager.update_episode ⟨false, envAllOk, envAllOk⟩ erinSys "ex5" "ep5"
        (some ⟨"A2", "b2"⟩)
      = (⟨false, 500, "Failed to update episode in database"⟩, erinSys)) ∧
    (EpisodeManager.update_episode ⟨true, envQueryFail, envAllOk⟩ erinSys "ex5" "ep5"
        (some ⟨"A2", "b2"⟩)
      = (⟨false, 500, "Failed to delete old episode content from Pinecone"⟩,
          ⟨⟨[erinExpert], [⟨"ep5", "ex5", "A2", "b2"⟩]⟩, erinSys.store⟩) ∧
      DatabaseService.get_episode_by_id ⟨[erinExpert], [⟨"ep5", "ex5", "A2", "b2"⟩]⟩
          "ep5" = some ⟨"ep5", "ex5", "A2", "b2"⟩ ∧
      (⟨"ep5", "ex5", "A2", "b2"⟩ : Episode).title = "A2" ∧
      (⟨"ep5", "ex5", "A2", "b2"⟩ : Episode).content = "b2") ∧
    (EpisodeManager.update_episode ⟨true, envAllOk, envEmbedFail⟩ erinSys "ex5" "ep5"
        (some ⟨"A2", "b2"⟩)
      = (⟨false, 500, "Failed to store updated episode content in Pinecone"⟩,
          ⟨⟨[erinExpert], [⟨"ep5", "ex5", "A2", "b2"⟩]⟩,
            (pinecone_delete_episode envAllOk erinSys.store "ep5"
              erinExpert.name).2⟩) ∧
      DatabaseService.get_episode_by_id ⟨[erinExpert], [⟨"ep5", "ex5", "A2", "b2"⟩]⟩
          "ep5" = some ⟨"ep5", "ex5", "A2", "b2"⟩ ∧
      (⟨"ep5", "ex5", "A2", "b2"⟩ : Episode).title = "A2" ∧
      (⟨"ep5", "ex5", "A2", "b2"⟩ : Episode).content = "b2") :=
  ⟨(update_rollback_semantics ⟨false, envAllOk, envAllOk⟩ erinSys "ex5" "ep5"
      ⟨"A2", "b2"⟩ erinExpert rfl rfl rfl).1 (by decide),
    (update_rollback_semantics ⟨true, envQueryFail, envAllOk⟩ erinSys "ex5" "ep5"
        ⟨"A2", "b2"⟩ erinExpert rfl rfl rfl).2.1
      ⟨"ep5", "ex5", "A2", "b2"⟩ ⟨[erinExpert], [⟨"ep5", "ex5", "A2", "b2"⟩]⟩
      (by decide) rfl,
    (update_rollback_semantics ⟨true, envAllOk, envEmbedFail⟩ erinSys "ex5" "ep5"
        ⟨"A2", "b2"⟩ erinExpert rfl rfl rfl).2.2
      ⟨"ep5", "ex5", "A2", "b2"⟩ ⟨[erinExpert], [⟨"ep5", "ex5", "A2", "b2"⟩]⟩
      (by decide) rfl rfl⟩

/-- A vector present after an upsert was present before or lies in the
namespace the upsert targeted. -/
theorem upsert_mem (store : Store) (ns : String)
    (batch : List (String × VectorMeta)) (v : StoredVector)
    (h : v ∈ upsert store ns batch) : v ∈ store ∨ v.ns = ns := by
  rcases List.mem_append.mp h with h2 | h2
  · exact Or.inl (List.mem_filter.mp h2).1
  · obtain ⟨p, _, rfl⟩ := List.mem_map.mp h2
    exact Or.inr rfl

/-- A vector present after store_episode_content was present before or
lies in the namespace derived from the expert name. -/
theorem store_content_mem (env : PineconeEnv) (store : Store) (ep : Episode)
    (name : String) (v : StoredVector)
    (h : v ∈ (store_episode_content env store ep name).2) :
    v ∈ store ∨ v.ns = derivedNamespace name := by
  by_cases hb : (env.embedDocsOk && env.upsertOk) = true
  · rw [store_episode_content, if_pos hb] at h
    exact upsert_mem _ _ _ _ h
  · rw [store_episode_content, if_neg hb] at h
    exact Or.inl h

/-- The delete call only removes vectors. -/
theorem pinecone_delete_subset (env : PineconeEnv) (store : Store)
    (epid ns : String) (v : StoredVector)
    (h : v ∈ (pinecone_delete_episode env store epid ns).2) : v ∈ store := by
  by_cases hq : env.queryOk = true
  · by_cases he : ((episodeMatches store ns epid 10000).map
        (fun w => w.id)).isEmpty = true
    · rwa [pinecone_delete_episode, if_pos hq, if_pos he] at h
    · by_cases hd : env.deleteOk = true
      · rw [pinecone_delete_episode, if_pos hq, if_neg he, if_pos hd] at h
        exact (List.mem_filter.mp h).1
      · rwa [pinecone_delete_episode, if_pos hq, if_neg he, if_neg hd] at h
  · rwa [pinecone_delete_episode, if_neg hq] at h

/-- C4 amended: on each mutating flow of the episode manager, every
vector present afterwards either was already present or lies in the
namespace derived from the name of the expert the request addressed; the
delete flow only removes vectors, and it addresses its vector delete at
the derived namespace: once the expert and the episode resolve, its
resulting index state is exactly the result of the Pinecone delete run
against the derived namespace.  (The raw-name addressing of the
update-flow vector delete is the refuted half of the claim.) -/
theorem chunks_live_in_derived_namespace
    (cenv : EpisodeManager.CreateEnv) (uenv : EpisodeManager.UpdateEnv)
    (denv : EpisodeManager.DeleteEnv) (sys : Sys)
    (expertId episodeId : String) (data : Option EpisodeData) (ex : Expert)
    (hex : DatabaseService.get_expert_by_id sys.db expertId = some ex) :
    (∀ v ∈ (EpisodeManager.create_episode cenv sys expertId data).2.store,
      v ∈ sys.store ∨ v.ns = derivedNamespace ex.name) ∧
    (∀ v ∈ (EpisodeManager.update_episode uenv sys expertId episodeId data).2.store,
      v ∈ sys.store ∨ v.ns = derivedNamespace ex.name) ∧
    (∀ v ∈ (EpisodeManager.delete_episode denv sys expertId episodeId).2.store,
      v ∈ sys.store) ∧
    (∀ ep0, DatabaseService.get_episode_by_id sys.db episodeId = some ep0 →
      (EpisodeManager.delete_episode denv sys expertId episodeId).2.store
        = (pinecone_delete_episode denv.pineDelete sys.store episodeId
            (derivedNamespace ex.name)).2) := by
  refine ⟨?_, ?_, ?_, ?_⟩
  · intro v hv
    cases data with
    | none =>
      simp only [EpisodeManager.create_episode, hex] at hv
      exact Or.inl hv
    | some d =>
      simp only [EpisodeManager.create_episode, hex] at hv
      by_cases hval : (EpisodeManager.validate_data (some ex) (some d)).1 = true
      · rw [if_pos hval] at hv
        cases hdb : DatabaseService.create_episode cenv.dbCommitOk cenv.newEpisodeId
            sys.db expertId d.title d.content with
        | mk o db2 =>
          rw [hdb] at hv
          cases o with
          | none => exact Or.inl hv
          | some ep => exact store_content_mem _ _ _ _ _ hv
      · rw [if_neg hval] at hv
        exact Or.inl hv
  · intro v hv
    cases data with
    | none =>
      simp only [EpisodeManager.update_episode, hex] at hv
      exact Or.inl hv
    | some d =>
      simp only [EpisodeManager.update_episode, hex] at hv
      by_cases hval : (EpisodeManager.validate_data (some ex) (some d)).1 = true
      · rw [if_pos hval] at hv
        cases hdb : DatabaseService.update_episode uenv.dbCommitOk sys.db episodeId
            d.title d.content with
        | mk o db2 =>
          rw [hdb] at hv
          cases o with
          | none => exact Or.inl hv
          | some ep =>
            simp only [] at hv
            by_cases hdel : (!(pinecone_delete_episode uenv.pineDelete sys.store
                episodeId ex.name).1) = true
            · rw [if_pos hdel] at hv
              exact Or.inl (pinecone_delete_subset _ _ _ _ _ hv)
            · rw [if_neg hdel] at hv
              have hv2 : v ∈ (store_episode_content uenv.pineStore
                  (pinecone_delete_episode uenv.pineDelete sys.store episodeId
                    ex.name).2 ep ex.name).2 := by
                by_cases hst : (!(store_episode_content uenv.pineStore
                    (pinecone_delete_episode uenv.pineDelete sys.store episodeId
                      ex.name).2 ep ex.name).1) = true
                · rwa [if_pos hst] at hv
                · rwa [if_neg hst] at hv
              rcases store_content_mem _ _ _ _ _ hv2 with h | h
              · exact Or.inl (pinecone_delete_subset _ _ _ _ _ h)
              · exact Or.inr h
      · rw [if_neg hval] at hv
        exact Or.inl hv
  · intro v hv
    simp only [EpisodeManager.delete_episode, hex] at hv
    cases hep : DatabaseService.get_episode_by_id sys.db episodeId with
    | none =>
      simp only [hep] at hv
      exact hv
    | some ep0 =>
      simp only [hep] at hv
      by_cases hdel : (!(pinecone_delete_episode denv.pineDelete sys.store episodeId
          (derivedNamespace ex.name)).1) = true
      · rw [if_pos hdel] at hv
        exact pinecone_delete_subset _ _ _ _ _ hv
      · rw [if_neg hdel] at hv
        cases hdb : DatabaseService.delete_episode denv.dbCommitOk sys.db episodeId with
        | mk b db2 =>
          rw [hdb] at hv
          cases b with
          | true => exact pinecone_delete_subset _ _ _ _ _ hv
          | false => exact pinecone_delete_subset _ _ _ _ _ hv
  · intro ep0 hep
    simp only [EpisodeManager.delete_episode, hex, hep]
    by_cases hdel : (!(pinecone_delete_episode denv.pineDelete sys.store episodeId
        (derivedNamespace ex.name)).1) = true
    · rw [if_pos hdel]
    · rw [if_neg hdel]
      cases hdb : DatabaseService.delete_episode denv.dbCommitOk sys.db episodeId with
      | mk b db2 =>
        cases b with
        | true => rfl
        | false => rfl

/-- Witness for the containment theorem: the frank create request for the
namespace containment, and the gina delete request for the derived
addressing of the delete flow. -/
theorem chunks_live_in_derived_namespace_witness :
    DatabaseService.get_expert_by_id frankSys.db "ex6" = some frankExpert ∧
    (frankVec ∈ frankSys.store ∨ frankVec.ns = derivedNamespace frankExpert.name) ∧
    DatabaseService.get_episode_by_id ginaSys.db "ep7g" = some ginaEpisode ∧
    (EpisodeManager.delete_episode ⟨true, envAllOk⟩ ginaSys "ex7" "ep7g").2.store
      = (pinecone_delete_episode envAllOk ginaSys.store "ep7g"
          (derivedNamespace ginaExpert.name)).2 :=
  ⟨rfl,
    (chunks_live_in_derived_namespace ⟨true, "ep6", envAllOk⟩ envUpdAllOk
        ⟨true, envAllOk⟩ frankSys "ex6" "ep6" (some ⟨"T", "c"⟩) frankExpert rfl).1
      frankVec (by decide),
    rfl,
    (chunks_live_in_derived_namespace ⟨true, "epX", envAllOk⟩ envUpdAllOk
        ⟨true, envAllOk⟩ ginaSys "ex7" "ep7g" (some ⟨"T", "c"⟩) ginaExpert rfl).2.2.2
      ginaEpisode rfl⟩

end Podcast
